import Mathlib

/-
Verification of core kernel services of the JOS kernel against its
specification.  Each C function referenced by a claim is shallowly embedded
as a Lean function over an explicit state; machine integers are modelled as
Nat (with explicit wrap-around only where the C arithmetic can overflow in
the scenarios covered by a claim).  Headers that are absent from the source
snapshot (error.h, conf.h, io.h) only contribute symbolic constants; these
are modelled as distinct values below, and no theorem depends on the exact
numbers, only on their sign and identity.
-/

namespace JOS

/-- Page size in bytes (4 KiB pages; conf.h is absent from the snapshot,
the value is fixed by the Sv39 design described in the spec). -/
def PAGE_SIZE : Nat := 4096

/-- Error tags from error.h (absent from the snapshot).  The kernel returns
the negation of these; only sign and distinctness matter. -/
def EINVAL : Int := 1

def EACCESS : Int := 2

def ENOTSUP : Int := 3

def EPIPE : Int := 4

def ENODATABLKS : Int := 5

def ENOINODEBLKS : Int := 6

/-- Control command numbers from io.h (absent from the snapshot); distinct
tags dispatched on by the cntl switches. -/
def IOCTL_GETBLKSZ : Nat := 0

def IOCTL_GETEND : Nat := 1

def IOCTL_SETEND : Nat := 2

def IOCTL_GETPOS : Nat := 3

def IOCTL_SETPOS : Nat := 4

/-! ## Memory-backed endpoint (struct memio, src/sys/io.c) -/

/-- The part of struct memio that memio_cntl touches: the stored size. -/
structure MemBuf where
  size : Nat
  deriving DecidableEq, Repr

/-- Shallow embedding of memio_cntl (src/sys/io.c lines 444-474).
Returns (result, endpoint after the call, value left in *szarg).
The C switch has no break between the SETEND case and the default
case, so after the SETEND body runs, execution falls through to
default, which overwrites result with -EINVAL. -/
def memio_cntl (m : MemBuf) (cmd : Nat) (arg : Nat) : Int × MemBuf × Nat :=
  if cmd = IOCTL_GETBLKSZ then (1, m, arg)
  else if cmd = IOCTL_GETEND then (0, m, m.size)
  else if cmd = IOCTL_SETEND then
    if arg > m.size then
      (-EINVAL, m, arg)
    else
      (-EINVAL, { m with size := arg }, arg)
  else (-EINVAL, m, arg)

/-! ## Seekable wrapper (struct seekio, src/sys/io.c) -/

/-- The fields of struct seekio that seekio_cntl reads and writes.  The
backing endpoint is abstracted as a cntl function passed separately. -/
structure SeekSt where
  pos : Nat
  end_ : Nat
  blksz : Nat
  deriving DecidableEq, Repr

/-- Shallow embedding of seekio_cntl (src/sys/io.c lines 484-530).
bkg models ioctl on the backing endpoint: command and argument in,
result and argument value out. -/
def seekio_cntl (bkg : Nat → Nat → Int × Nat) (s : SeekSt) (cmd : Nat)
    (arg : Nat) : Int × SeekSt × Nat :=
  if cmd = IOCTL_GETBLKSZ then ((s.blksz : Int), s, arg)
  else if cmd = IOCTL_GETPOS then (0, s, s.pos)
  else if cmd = IOCTL_SETPOS then
    if arg &&& (s.blksz - 1) ≠ 0 ∨ arg > s.end_ then (-EINVAL, s, arg)
    else (0, { s with pos := arg }, arg)
  else if cmd = IOCTL_GETEND then (0, s, s.end_)
  else if cmd = IOCTL_SETEND then
    let r := bkg IOCTL_SETEND arg
    if r.1 = 0 then (r.1, { s with end_ := r.2 }, r.2)
    else (r.1, s, r.2)
  else
    let r := bkg cmd arg
    (r.1, s, r.2)

/-- C2: evaluation of memio_cntl at the failing input.  SETEND with
requested size 5 on an endpoint of size 10 does shrink the stored size to
5 but returns -EINVAL rather than 0, because the missing break lets the
SETEND case fall through into the default branch; GETEND stores the
current size and returns 0, and GETBLKSZ returns 1, as the claim states. -/
theorem C2_memio_cntl_setend_falls_through :
    memio_cntl ⟨10⟩ IOCTL_SETEND 5 = (-EINVAL, ⟨5⟩, 5) ∧
    memio_cntl ⟨10⟩ IOCTL_SETEND 11 = (-EINVAL, ⟨10⟩, 11) ∧
    memio_cntl ⟨10⟩ IOCTL_GETEND 0 = (0, ⟨10⟩, 10) ∧
    memio_cntl ⟨10⟩ IOCTL_GETBLKSZ 7 = (1, ⟨10⟩, 7) ∧
    (-EINVAL : Int) < 0 := by
  refine ⟨rfl, rfl, rfl, rfl, by decide⟩

/-- C10: on a seekable wrapper whose block size is a power of two (as
asserted at creation in create_seekable_io), SETPOS with a position that
is not a multiple of the block size or exceeds the end returns -EINVAL
and leaves the position unchanged; otherwise it stores the position and
returns 0, and a subsequent GETPOS stores exactly that position and
returns 0. -/
theorem C10_seekio_setpos_getpos (bkg : Nat → Nat → Int × Nat) (s : SeekSt)
    (v : Nat) (k : Nat) (hb : s.blksz = 2 ^ k) :
    ((v % s.blksz ≠ 0 ∨ s.end_ < v) →
      seekio_cntl bkg s IOCTL_SETPOS v = (-EINVAL, s, v)) ∧
    (v % s.blksz = 0 → v ≤ s.end_ →
      seekio_cntl bkg s IOCTL_SETPOS v = (0, { s with pos := v }, v) ∧
      ∀ a : Nat, seekio_cntl bkg { s with pos := v } IOCTL_GETPOS a =
        (0, { s with pos := v }, v)) := by
  have hmask : v &&& (s.blksz - 1) = v % s.blksz := by
    rw [hb]
    exact Nat.and_pow_two_sub_one_eq_mod v k
  constructor
  · intro h
    have hcond : v &&& (s.blksz - 1) ≠ 0 ∨ v > s.end_ := by
      rcases h with h | h
      · exact Or.inl (by rw [hmask]; exact h)
      · exact Or.inr h
    simp only [seekio_cntl, IOCTL_GETBLKSZ, IOCTL_GETPOS, IOCTL_SETPOS,
      IOCTL_GETEND, IOCTL_SETEND]
    norm_num
    intro hz hle
    rcases hcond with hc | hc
    · exact absurd hz hc
    · omega
  · intro h1 h2
    have hcond : ¬(v &&& (s.blksz - 1) ≠ 0 ∨ v > s.end_) := by
      push_neg
      exact ⟨by rw [hmask]; exact h1, h2⟩
    constructor
    · simp only [seekio_cntl, IOCTL_GETBLKSZ, IOCTL_GETPOS, IOCTL_SETPOS,
        IOCTL_GETEND, IOCTL_SETEND]
      norm_num
      intro hc
      exact absurd hc hcond
    · intro a
      simp only [seekio_cntl, IOCTL_GETBLKSZ, IOCTL_GETPOS, IOCTL_SETPOS,
        IOCTL_GETEND, IOCTL_SETEND]
      norm_num

/-- C10 witness: block size 2 (a power of two), end 4; position 3 is
rejected with the state unchanged, position 2 is accepted and read back
by GETPOS. -/
theorem C10_seekio_setpos_getpos_witness :
    seekio_cntl (fun _ a => (0, a)) ⟨0, 4, 2⟩ IOCTL_SETPOS 3 =
      (-EINVAL, ⟨0, 4, 2⟩, 3) ∧
    seekio_cntl (fun _ a => (0, a)) ⟨0, 4, 2⟩ IOCTL_SETPOS 2 =
      (0, ⟨2, 4, 2⟩, 2) ∧
    seekio_cntl (fun _ a => (0, a)) ⟨2, 4, 2⟩ IOCTL_GETPOS 0 =
      (0, ⟨2, 4, 2⟩, 2) := by
  refine ⟨?_, ?_, ?_⟩
  · exact (C10_seekio_setpos_getpos (fun _ a => (0, a)) ⟨0, 4, 2⟩ 3 1
      rfl).1 (by decide)
  · exact ((C10_seekio_setpos_getpos (fun _ a => (0, a)) ⟨0, 4, 2⟩ 2 1
      rfl).2 (by decide) (by decide)).1
  · exact ((C10_seekio_setpos_getpos (fun _ a => (0, a)) ⟨0, 4, 2⟩ 2 1
      rfl).2 (by decide) (by decide)).2 0

/-! ## Virtual memory: user pointer validation (src/sys/memory.c) -/

/-- PTE flag bits, as documented in the pte comment block of memory.c
(bit 0 = V, 1 = R, 2 = W, 3 = X, 4 = U, 5 = G, 6 = A, 7 = D). -/
def PTE_V : Nat := 1

def PTE_R : Nat := 2

def PTE_W : Nat := 4

def PTE_X : Nat := 8

def PTE_U : Nat := 16

def PTE_G : Nat := 32

/-- An address space, abstracted by the result of walk_pte: the flag field
of the level-0 PTE for each virtual page number.  When an intermediate
level is invalid, walk_pte returns the null pte, i.e. flags 0. -/
def PageTable : Type := Nat → Nat

/-- The PTE_VALID macro of memory.c. -/
def PTE_VALID (flags : Nat) : Bool := flags &&& PTE_V ≠ 0

/-- ROUND_DOWN from the kernel headers: round x down to a multiple of a. -/
def ROUND_DOWN (x a : Nat) : Nat := x / a * a

/-- The while loop of memory_validate_vptr_len (src/sys/memory.c lines
847-857): step offset through [0, len) in PAGE_SIZE strides, walking the
PTE of page (vma + offset) / PAGE_SIZE and requiring Valid plus all of
the required flags. -/
def validate_loop (pt : PageTable) (vma len req offset : Nat) : Int :=
  if h : offset < len then
    if PTE_VALID (pt ((vma + offset) / PAGE_SIZE)) = false ∨
        pt ((vma + offset) / PAGE_SIZE) &&& req ≠ req then -EACCESS
    else validate_loop pt vma len req (offset + PAGE_SIZE)
  else 0
termination_by len - offset
decreasing_by simp only [PAGE_SIZE]; omega

/-- Shallow embedding of memory_validate_vptr_len (src/sys/memory.c lines
831-860). -/
def memory_validate_vptr_len (pt : PageTable) (vp len req : Nat) : Int :=
  if vp = 0 then -EINVAL
  else validate_loop pt (ROUND_DOWN vp PAGE_SIZE) len req 0

/-- A PTE passes validation for required flags req. -/
def pteOk (req flags : Nat) : Prop :=
  PTE_VALID flags = true ∧ flags &&& req = req

instance (req flags : Nat) : Decidable (pteOk req flags) := by
  unfold pteOk; infer_instance

/-- Characterization of the validation loop: starting at offset
PAGE_SIZE * j over a page-aligned base PAGE_SIZE * b, it returns 0 iff
every checked page b + k (j <= k, PAGE_SIZE * k < len) passes, and it
returns either 0 or -EACCESS. -/
lemma validate_loop_spec (pt : PageTable) (b len req : Nat) :
    ∀ fuel j, len ≤ PAGE_SIZE * j + fuel →
      ((validate_loop pt (PAGE_SIZE * b) len req (PAGE_SIZE * j) = 0 ↔
        ∀ k, j ≤ k → PAGE_SIZE * k < len → pteOk req (pt (b + k))) ∧
       (validate_loop pt (PAGE_SIZE * b) len req (PAGE_SIZE * j) = 0 ∨
        validate_loop pt (PAGE_SIZE * b) len req (PAGE_SIZE * j) = -EACCESS)) := by
  have hP : PAGE_SIZE = 4096 := rfl
  intro fuel
  induction fuel with
  | zero =>
    intro j hle
    have hnl : ¬ (PAGE_SIZE * j < len) := by omega
    rw [validate_loop, dif_neg hnl]
    refine ⟨⟨fun _ k hk hklen => absurd hklen ?_, fun _ => rfl⟩, Or.inl rfl⟩
    have : PAGE_SIZE * j ≤ PAGE_SIZE * k := Nat.mul_le_mul_left _ hk
    omega
  | succ n ih =>
    intro j hle
    by_cases hlt : PAGE_SIZE * j < len
    · rw [validate_loop, dif_pos hlt]
      have hpage : (PAGE_SIZE * b + PAGE_SIZE * j) / PAGE_SIZE = b + j := by
        rw [← Nat.mul_add, Nat.mul_div_cancel_left _ (by omega : 0 < PAGE_SIZE)]
      by_cases hbad : PTE_VALID (pt ((PAGE_SIZE * b + PAGE_SIZE * j) / PAGE_SIZE))
          = false ∨ pt ((PAGE_SIZE * b + PAGE_SIZE * j) / PAGE_SIZE) &&& req ≠ req
      · rw [if_pos hbad]
        refine ⟨⟨fun h0 => absurd h0 (by decide), fun hall => ?_⟩, Or.inr rfl⟩
        exfalso
        have hok := hall j le_rfl hlt
        rw [hpage] at hbad
        rcases hbad with hb | hb
        · rw [hok.1] at hb; exact absurd hb (by decide)
        · exact hb hok.2
      · rw [if_neg hbad]
        rw [hpage] at hbad
        have hok : pteOk req (pt (b + j)) := by
          rcases not_or.mp hbad with ⟨hb1, hb2⟩
          refine ⟨?_, not_not.mp hb2⟩
          cases hval : PTE_VALID (pt (b + j)) with
          | false => exact absurd hval hb1
          | true => rfl
        have harg : PAGE_SIZE * j + PAGE_SIZE = PAGE_SIZE * (j + 1) := by ring
        rw [harg]
        have hih := ih (j + 1) (by omega)
        refine ⟨?_, hih.2⟩
        rw [hih.1]
        constructor
        · intro hall k hk hklen
          rcases Nat.eq_or_lt_of_le hk with rfl | hk'
          · exact hok
          · exact hall k hk' hklen
        · intro hall k hk hklen
          exact hall k (by omega) hklen
    · rw [validate_loop, dif_neg hlt]
      refine ⟨⟨fun _ k hk hklen => absurd hklen ?_, fun _ => rfl⟩, Or.inl rfl⟩
      have : PAGE_SIZE * j ≤ PAGE_SIZE * k := Nat.mul_le_mul_left _ hk
      omega

/-- The property asserted by claim C3: for non-null p, validation succeeds
iff every page containing at least one byte of [p, p + len) is valid with
all required flags. -/
def C3_claimed (pt : PageTable) (vp len req : Nat) : Prop :=
  vp ≠ 0 →
    (memory_validate_vptr_len pt vp len req = 0 ↔
      ∀ pn : Nat, (∃ byt, vp ≤ byt ∧ byt < vp + len ∧ byt / PAGE_SIZE = pn) →
        pteOk req (pt pn))

/-- Address space for the C3 counterexample: page 0 is mapped V|R|U,
every other page is unmapped. -/
def C3_pt0 : PageTable := fun pn =>
  if pn = 0 then PTE_V ||| PTE_R ||| PTE_U else 0

lemma C3_pt0_validate_zero : memory_validate_vptr_len C3_pt0 4095 2 PTE_U = 0 := by
  have h := (validate_loop_spec C3_pt0 0 2 PTE_U 2 0 (by simp [PAGE_SIZE])).1
  have h0 : ROUND_DOWN 4095 PAGE_SIZE = PAGE_SIZE * 0 := by decide
  rw [memory_validate_vptr_len, if_neg (by decide), h0]
  have hz : validate_loop C3_pt0 (PAGE_SIZE * 0) 2 PTE_U (PAGE_SIZE * 0) = 0 := by
    rw [h]
    intro k _ hk
    have hk0 : k = 0 := by
      simp only [PAGE_SIZE] at hk
      omega
    subst hk0
    decide
  exact hz

/-- C3 counterexample: with page 0 mapped V|R|U and page 1 unmapped, the
call memory_validate_vptr_len(p = 4095, len = 2, required = U) returns 0,
although byte 4096 of [4095, 4097) lies in page 1, whose PTE is invalid:
the loop only checks ceil(len / PAGE_SIZE) pages starting at the page of
p, and misses the last touched page when p is not page-aligned. -/
theorem C3_validate_vptr_len_counterexample : ¬ C3_claimed C3_pt0 4095 2 PTE_U := by
  intro h
  have hall := (h (by decide)).mp C3_pt0_validate_zero
  have hbad := hall 1 ⟨4096, by omega, by omega, by decide⟩
  revert hbad
  decide

/-- C3 (amended): memory_validate_vptr_len returns -EINVAL on a null
pointer; otherwise it returns 0 iff, for every k with
PAGE_SIZE * k < len, the page vp / PAGE_SIZE + k has a Valid PTE whose
flags include all required flags (these are the pages the loop actually
walks: ceil(len / PAGE_SIZE) consecutive pages starting at the page of
vp), and otherwise it returns -EACCESS. -/
theorem C3_validate_vptr_len_amended (pt : PageTable) (vp len req : Nat) :
    (vp = 0 → memory_validate_vptr_len pt vp len req = -EINVAL) ∧
    (vp ≠ 0 →
      ((memory_validate_vptr_len pt vp len req = 0 ↔
        ∀ k, PAGE_SIZE * k < len → pteOk req (pt (vp / PAGE_SIZE + k))) ∧
       (memory_validate_vptr_len pt vp len req = 0 ∨
        memory_validate_vptr_len pt vp len req = -EACCESS))) := by
  constructor
  · intro h0
    rw [memory_validate_vptr_len, if_pos h0]
  · intro hne
    have h := validate_loop_spec pt (vp / PAGE_SIZE) len req len 0
      (by simp [PAGE_SIZE])
    have h0 : ROUND_DOWN vp PAGE_SIZE = PAGE_SIZE * (vp / PAGE_SIZE) := by
      rw [ROUND_DOWN, Nat.mul_comm]
    rw [memory_validate_vptr_len, if_neg hne, h0,
      show (0 : Nat) = PAGE_SIZE * 0 from rfl]
    refine ⟨?_, h.2⟩
    rw [h.1]
    exact ⟨fun hall k hk => hall k (Nat.zero_le _) hk,
      fun hall k _ hk => hall k hk⟩

/-- C3 amended witness: at the concrete counterexample input the amended
characterization evaluates: the two checked pages of a 2-byte region at
4095 reduce to page 0 only, which passes, so the call returns 0. -/
theorem C3_validate_vptr_len_amended_witness :
    memory_validate_vptr_len C3_pt0 4095 2 PTE_U = 0 := by
  refine ((C3_validate_vptr_len_amended C3_pt0 4095 2 PTE_U).2
    (by decide)).1.mpr ?_
  intro k hk
  have hk0 : k = 0 := by
    simp only [PAGE_SIZE] at hk
    omega
  subst hk0
  decide

/-! ## Pipes (struct pipe, src/sys/io.c)

The pipe state as pipe_read sees it.  The head and tail counters are
unsigned ints in C that index the page-sized ring buffer modulo
PAGE_SIZE; they are modelled as unbounded naturals, which agrees with
the modular C arithmetic throughout the ring invariant
hpos <= tpos <= hpos + PAGE_SIZE. -/

structure Pipe where
  wio_refcnt : Nat
  rio_refcnt : Nat
  buf : Nat → Nat
  hpos : Nat
  tpos : Nat

/-- The do-while copy loop of pipe_read (src/sys/io.c lines 774-787):
one byte is consumed unconditionally (pipe_rbuf_getc), then the loop stops
when the ring becomes empty or read_bytes reaches len.  left is
len - read_bytes on entry to an iteration; for left = 0 and left = 1 the
iteration stops after its one byte whether or not the ring emptied, which
is the same pair either way. -/
def pipe_read_go (p : Pipe) : Nat → List Nat × Pipe
  | 0 => ([p.buf (p.hpos % PAGE_SIZE)], { p with hpos := p.hpos + 1 })
  | 1 => ([p.buf (p.hpos % PAGE_SIZE)], { p with hpos := p.hpos + 1 })
  | left' + 2 =>
    if p.hpos + 1 = p.tpos then
      ([p.buf (p.hpos % PAGE_SIZE)], { p with hpos := p.hpos + 1 })
    else
      (p.buf (p.hpos % PAGE_SIZE) ::
          (pipe_read_go { p with hpos := p.hpos + 1 } (left' + 1)).1,
        (pipe_read_go { p with hpos := p.hpos + 1 } (left' + 1)).2)

/-- Shallow embedding of pipe_read (src/sys/io.c lines 736-792), as a
sequential function: the result is none exactly on the path that calls
condition_wait (empty ring with both endpoints open), where the thread
would block.  On the other paths the C function runs to completion
without suspending and returns (return value, bytes copied out, new
pipe state). -/
def pipe_read (p : Pipe) (len : Int) : Option (Int × List Nat × Pipe) :=
  if p.rio_refcnt = 0 then some (-EPIPE, [], p)
  else if p.wio_refcnt = 0 then some (0, [], p)
  else
    let len' : Int := if len > (PAGE_SIZE : Int) then (PAGE_SIZE : Int) else len
    if p.hpos = p.tpos then none
    else
      let r := pipe_read_go p len'.toNat
      some ((r.1.length : Int), r.1, r.2)

/-- The bytes currently buffered in the ring, oldest first. -/
def bufferedBytes (p : Pipe) : List Nat :=
  (List.range (p.tpos - p.hpos)).map fun i => p.buf ((p.hpos + i) % PAGE_SIZE)

/-- The property asserted by claim C1: once the write endpoint refcount is
zero, a read first drains the ring (min(k, n) bytes when k > 0 are
buffered and n > 0 requested) and returns 0 only once the ring is empty. -/
def C1_claimed : Prop :=
  ∀ p : Pipe, p.hpos ≤ p.tpos → p.tpos ≤ p.hpos + PAGE_SIZE →
    p.wio_refcnt = 0 → 0 < p.rio_refcnt →
    ∀ n : Nat, 0 < n →
      (p.hpos < p.tpos →
        ∃ q : Pipe, pipe_read p (n : Int) =
          some (((min (p.tpos - p.hpos) n : Nat) : Int),
            (bufferedBytes p).take n, q)) ∧
      (p.hpos = p.tpos → pipe_read p (n : Int) = some (0, [], p))

/-- Pipe state for the C1 counterexample: write side closed, read side
open, one byte (value 65) still buffered. -/
def C1_pipe0 : Pipe :=
  { wio_refcnt := 0, rio_refcnt := 1, buf := fun _ => 65, hpos := 0, tpos := 1 }

/-- C1 counterexample: with the write endpoint closed and one byte still
buffered, pipe_read with n = 1 returns 0 having copied nothing, because
the wio.refcnt == 0 test at the top of pipe_read returns 0 before the
ring is examined; the claim requires min(1, 1) = 1 byte. -/
theorem C1_pipe_read_counterexample : ¬ C1_claimed := by
  intro h
  obtain ⟨q, hq⟩ :=
    (h C1_pipe0 (by decide) (by decide) rfl (by decide) 1 (by decide)).1
      (by decide)
  have hr : pipe_read C1_pipe0 ((1 : Nat) : Int) = some (0, [], C1_pipe0) := rfl
  rw [hr] at hq
  have h1 : (0 : Int) = ((min (C1_pipe0.tpos - C1_pipe0.hpos) 1 : Nat) : Int) :=
    congrArg (fun x : Int × List Nat × Pipe => x.1) (Option.some.inj hq)
  revert h1
  decide

lemma bufferedBytes_cons (p : Pipe) (hne : p.hpos < p.tpos) :
    bufferedBytes p =
      p.buf (p.hpos % PAGE_SIZE) ::
        bufferedBytes { p with hpos := p.hpos + 1 } := by
  rw [bufferedBytes, bufferedBytes]
  have hk : p.tpos - p.hpos = (p.tpos - (p.hpos + 1)) + 1 := by omega
  rw [hk, List.range_succ_eq_map, List.map_cons, Nat.add_zero]
  simp only [List.map_map]
  congr 1
  apply List.map_congr_left
  intro i _
  simp only [Function.comp_apply]
  have hadd : p.hpos + i.succ = p.hpos + 1 + i := by omega
  rw [hadd]

lemma pipe_read_go_spec (left : Nat) :
    ∀ p : Pipe, p.hpos < p.tpos →
      pipe_read_go p left =
        ((bufferedBytes p).take (min (p.tpos - p.hpos) (max left 1)),
          { p with hpos := p.hpos + min (p.tpos - p.hpos) (max left 1) }) := by
  induction left using Nat.strong_induction_on with
  | _ left ih =>
    intro p hne
    have hbuf := bufferedBytes_cons p hne
    match left with
    | 0 =>
      have hmin : min (p.tpos - p.hpos) (max 0 1) = 1 := by omega
      rw [pipe_read_go, hmin, hbuf]
      simp
    | 1 =>
      have hmin : min (p.tpos - p.hpos) (max 1 1) = 1 := by omega
      rw [pipe_read_go, hmin, hbuf]
      simp
    | left' + 2 =>
      rw [pipe_read_go]
      by_cases hlast : p.hpos + 1 = p.tpos
      · rw [if_pos hlast]
        have hmin : min (p.tpos - p.hpos) (max (left' + 2) 1) = 1 := by omega
        rw [hmin, hbuf]
        simp
      · rw [if_neg hlast]
        have hmore : p.hpos + 1 < p.tpos := by omega
        have hrec := ih (left' + 1) (by omega) { p with hpos := p.hpos + 1 }
          (by simpa using hmore)
        rw [hrec]
        have hm2 : max (left' + 2) 1 = left' + 2 := by omega
        have hm1 : max (left' + 1) 1 = left' + 1 := by omega
        rw [hm2]
        simp only [hm1]
        have hstep : min (p.tpos - (p.hpos + 1)) (left' + 1) + 1 =
            min (p.tpos - p.hpos) (left' + 2) := by omega
        simp only [Prod.mk.injEq]
        constructor
        · rw [hbuf, ← hstep, List.take_succ_cons]
        · simp only [Pipe.mk.injEq, true_and, and_true]
          omega

/-- C1 (amended): once the write endpoint refcount has dropped to zero
(and the read endpoint is still open), pipe_read returns 0 immediately and
copies nothing, regardless of how many bytes remain buffered; while both
endpoints are open and k > 0 bytes are buffered, a read of n > 0 bytes
returns min(k, n) of the oldest buffered bytes and advances the head by
min(k, n). -/
theorem C1_pipe_read_amended (p : Pipe) (n : Nat)
    (hcap : p.tpos ≤ p.hpos + PAGE_SIZE) (hn : 0 < n) :
    (p.wio_refcnt = 0 → 0 < p.rio_refcnt →
      pipe_read p (n : Int) = some (0, [], p)) ∧
    (0 < p.wio_refcnt → 0 < p.rio_refcnt → p.hpos < p.tpos →
      pipe_read p (n : Int) =
        some (((min (p.tpos - p.hpos) n : Nat) : Int),
          (bufferedBytes p).take n,
          { p with hpos := p.hpos + min (p.tpos - p.hpos) n })) := by
  constructor
  · intro hw hr
    simp only [pipe_read]
    rw [if_neg (by omega), if_pos hw]
  · intro hw hr hne
    simp only [pipe_read]
    rw [if_neg (by omega), if_neg (by omega), if_neg (by omega : ¬ p.hpos = p.tpos)]
    have hlen' : (if (n : Int) > (PAGE_SIZE : Int) then (PAGE_SIZE : Int)
        else (n : Int)).toNat = min n PAGE_SIZE := by
      by_cases hcmp : (n : Int) > (PAGE_SIZE : Int)
      · rw [if_pos hcmp, Nat.min_eq_right
          (by exact_mod_cast Int.le_of_lt hcmp : PAGE_SIZE ≤ n),
          Int.toNat_natCast]
      · rw [if_neg hcmp, Nat.min_eq_left
          (by exact_mod_cast not_lt.mp hcmp : n ≤ PAGE_SIZE),
          Int.toNat_natCast]
    rw [hlen']
    have hgo := pipe_read_go_spec (min n PAGE_SIZE) p hne
    have hmx : max (min n PAGE_SIZE) 1 = min n PAGE_SIZE := by
      have hp : 0 < PAGE_SIZE := by decide
      omega
    rw [hmx] at hgo
    have hminmin : min (p.tpos - p.hpos) (min n PAGE_SIZE) =
        min (p.tpos - p.hpos) n := by omega
    rw [hminmin] at hgo
    rw [hgo]
    have hblen : (bufferedBytes p).length = p.tpos - p.hpos := by
      simp [bufferedBytes]
    have htake : (bufferedBytes p).take (min (p.tpos - p.hpos) n) =
        (bufferedBytes p).take n := by
      rcases Nat.le_total (p.tpos - p.hpos) n with hle | hle
      · rw [Nat.min_eq_left hle,
          List.take_of_length_le (by rw [hblen]),
          List.take_of_length_le (by rw [hblen]; exact hle)]
      · rw [Nat.min_eq_right hle]
    have hlength : ((bufferedBytes p).take (min (p.tpos - p.hpos) n)).length =
        min (p.tpos - p.hpos) n := by
      rw [List.length_take, hblen]
      omega
    rw [← htake, hlength]

/-- C1 amended witness: write side open with two buffered bytes 7 and 9, a
read of 1 byte returns one byte, the oldest (7); and with the write side
closed and one byte buffered, the read returns 0 at once. -/
theorem C1_pipe_read_amended_witness :
    pipe_read ⟨1, 1, (fun i => 2 * i + 7), 0, 2⟩ ((1 : Nat) : Int) =
      some (1, [7], ⟨1, 1, (fun i => 2 * i + 7), 1, 2⟩) ∧
    pipe_read ⟨0, 1, (fun i => 2 * i + 7), 0, 1⟩ ((1 : Nat) : Int) =
      some (0, [], ⟨0, 1, (fun i => 2 * i + 7), 0, 1⟩) := by
  constructor
  · have h := (C1_pipe_read_amended ⟨1, 1, (fun i => 2 * i + 7), 0, 2⟩ 1
      (by decide) (by decide)).2 (by decide) (by decide) (by decide)
    rw [h]
    rfl
  · exact (C1_pipe_read_amended ⟨0, 1, (fun i => 2 * i + 7), 0, 1⟩ 1
      (by decide) (by decide)).1 rfl (by decide)

/-! ## Threads: recursive locks and thread_exit (src/sys/thread.c)

Locks are identified by an index; a lock's state is its owner (a thread
id, or none) and its recursion count.  A thread's owned-lock list (the
singly linked chain through struct lock next rooted at TP->lock_list) is
the list of lock indices, most recently acquired first.  The ghost field
broadcasts records each lock whose released condition has been broadcast,
most recent first. -/

structure LockSt where
  owner : Option Nat
  cnt : Nat
  deriving DecidableEq, Repr

structure ThreadLocks where
  locks : Nat → LockSt
  lock_list : List Nat
  broadcasts : List Nat

/-- Shallow embedding of lock_acquire (src/sys/thread.c lines 479-513) for
thread t, on the non-blocking paths: none models the contended case in
which the caller waits on the released condition. -/
def lock_acquire (t : Nat) (s : ThreadLocks) (l : Nat) : Option ThreadLocks :=
  match (s.locks l).owner with
  | some o =>
    if o = t then
      some { s with
        locks := Function.update s.locks l ⟨some t, (s.locks l).cnt + 1⟩ }
    else none
  | none =>
    some { s with
      locks := Function.update s.locks l ⟨some t, 1⟩,
      lock_list := l :: s.lock_list }

/-- Shallow embedding of lock_release (src/sys/thread.c lines 515-566),
called by thread t (the assert requires t to be the owner; theorems carry
that as a hypothesis).  The count is decremented; only when it reaches 0
is the owner cleared, the lock unlinked from the owner list (first match,
as the C pointer scan finds the unique node), and released broadcast. -/
def lock_release (t : Nat) (s : ThreadLocks) (l : Nat) : ThreadLocks :=
  let cnt' := (s.locks l).cnt - 1
  if 0 < cnt' then
    { s with locks := Function.update s.locks l ⟨(s.locks l).owner, cnt'⟩ }
  else
    { s with
      locks := Function.update s.locks l ⟨none, cnt'⟩,
      lock_list := s.lock_list.erase l,
      broadcasts := l :: s.broadcasts }

/-- The lock-release loop of thread_exit (src/sys/thread.c lines 314-320):
head walks the chain as it was when the loop started (no release ever
modifies a node's next pointer), calling lock_release once per lock. -/
def thread_exit_locks (t : Nat) (s : ThreadLocks) : ThreadLocks :=
  s.lock_list.foldl (fun acc l => lock_release t acc l) s

/-- Initial lock state for the C4 failing input: one lock (index 0), free,
the exiting thread (id 7) holds nothing yet. -/
def C4_s0 : ThreadLocks :=
  { locks := fun _ => ⟨none, 0⟩, lock_list := [], broadcasts := [] }

/-- State after thread 7 acquires lock 0 once. -/
def C4_s1 : ThreadLocks :=
  { locks := Function.update (fun _ => (⟨none, 0⟩ : LockSt)) 0 ⟨some 7, 1⟩,
    lock_list := [0], broadcasts := [] }

/-- State after thread 7 acquires lock 0 a second time (recursively). -/
def C4_s2 : ThreadLocks :=
  { locks := Function.update C4_s1.locks 0 ⟨some 7, (C4_s1.locks 0).cnt + 1⟩,
    lock_list := [0], broadcasts := [] }

/-- C4: evaluation at the failing input.  If thread 7 lock_acquires lock 0
twice (the second acquire is the recursive case, raising the count to 2)
and then runs the thread_exit release loop, the loop calls lock_release
once, which only decrements the count to 1: lock 0 is still owned by the
exited thread and its released condition was never broadcast.  By
contrast, after a single acquire the same loop does release the lock and
broadcasts it, as the claim demands. -/
theorem C4_thread_exit_leaves_recursive_lock_owned :
    lock_acquire 7 C4_s0 0 = some C4_s1 ∧
    lock_acquire 7 C4_s1 0 = some C4_s2 ∧
    ((thread_exit_locks 7 C4_s2).locks 0).owner = some 7 ∧
    ((thread_exit_locks 7 C4_s2).locks 0).cnt = 1 ∧
    (thread_exit_locks 7 C4_s2).broadcasts = [] ∧
    ((thread_exit_locks 7 C4_s1).locks 0).owner = none ∧
    (thread_exit_locks 7 C4_s1).broadcasts = [0] := by
  refine ⟨?_, ?_, ?_, ?_, ?_, ?_, ?_⟩ <;> rfl

/-! ## Physical page allocator (src/sys/memory.c)

The free list is a chain of struct page_chunk nodes, each lying at the
start of the region it describes; a node is modelled as its physical
address plus its page count, and the chain as a list sorted the way the C
maintains it. -/

structure Chunk where
  addr : Nat
  pagecnt : Nat
  deriving DecidableEq, Repr

/-- End address of a chunk: addr + pagecnt pages. -/
def chunk_end (c : Chunk) : Nat := c.addr + c.pagecnt * PAGE_SIZE

/-- The best-so-far test of the scan loop in alloc_phys_pages (lines
636-637): current->pagecnt >= cnt && current->pagecnt <= best->pagecnt.
The initial dummy best with pagecnt UINT64_MAX is modelled as none, which
every page count compares <= against. -/
def scan_better (n : Nat) (c : Chunk) (best : Option (Nat × Chunk)) : Bool :=
  decide (n ≤ c.pagecnt) &&
    match best with
    | none => true
    | some p => decide (c.pagecnt ≤ p.2.pagecnt)

/-- The best-fit scan of alloc_phys_pages (src/sys/memory.c lines
627-650): walk the list keeping the best (index, chunk) seen, replacing
whenever the current chunk fits and is no larger than the best, and
breaking at the first exact match. -/
def alloc_scan (n : Nat) : List Chunk → Nat → Option (Nat × Chunk) →
    Option (Nat × Chunk)
  | [], _, best => best
  | c :: rest, i, best =>
    if scan_better n c best then
      if c.pagecnt = n then some (i, c)
      else alloc_scan n rest (i + 1) (some (i, c))
    else alloc_scan n rest (i + 1) best

/-- Shallow embedding of alloc_phys_pages (src/sys/memory.c lines
612-693).  none models the two panic paths (empty free list, no chunk
large enough).  An exact fit unlinks the chunk; otherwise the highest
n pages are carved off and the remainder keeps its place in the list
with its count reduced. -/
def alloc_phys_pages (n : Nat) (l : List Chunk) : Option (Nat × List Chunk) :=
  match alloc_scan n l 0 none with
  | none => none
  | some (i, best) =>
    if best.pagecnt - n = 0 then some (best.addr, l.eraseIdx i)
    else some (best.addr + (best.pagecnt - n) * PAGE_SIZE,
      l.set i ⟨best.addr, best.pagecnt - n⟩)

lemma scan_better_iff (n : Nat) (c : Chunk) (best : Option (Nat × Chunk)) :
    scan_better n c best = true ↔
      n ≤ c.pagecnt ∧ ∀ p ∈ best, c.pagecnt ≤ p.2.pagecnt := by
  cases best with
  | none => simp [scan_better]
  | some p => simp [scan_better]

lemma alloc_scan_ne_none (n : Nat) :
    ∀ (rest : List Chunk) (i : Nat) (best : Option (Nat × Chunk)),
      (best ≠ none ∨ ∃ d ∈ rest, n ≤ d.pagecnt) →
      alloc_scan n rest i best ≠ none := by
  intro rest
  induction rest with
  | nil =>
    intro i best h
    rw [alloc_scan]
    rcases h with hb | ⟨d, hd, _⟩
    · exact hb
    · exact absurd hd (List.not_mem_nil d)
  | cons a rest ih =>
    intro i best h
    rw [alloc_scan]
    by_cases hf : scan_better n a best = true
    · rw [if_pos hf]
      by_cases he : a.pagecnt = n
      · rw [if_pos he]
        simp
      · rw [if_neg he]
        exact ih (i + 1) (some (i, a)) (Or.inl (by simp))
    · rw [if_neg hf]
      apply ih
      rcases h with hb | ⟨d, hd, hdn⟩
      · exact Or.inl hb
      · rcases List.mem_cons.mp hd with rfl | hd'
        · cases best with
          | none =>
            exfalso
            apply hf
            rw [scan_better_iff]
            exact ⟨hdn, by simp⟩
          | some p => exact Or.inl (by simp)
        · exact Or.inr ⟨d, hd', hdn⟩

lemma alloc_scan_spec (n : Nat) :
    ∀ (rest : List Chunk) (i : Nat) (best : Option (Nat × Chunk)),
      (∀ p ∈ best, n < p.2.pagecnt) →
      ∀ j c, alloc_scan n rest i best = some (j, c) →
        n ≤ c.pagecnt ∧
        (∀ d ∈ rest, n ≤ d.pagecnt → c.pagecnt ≤ d.pagecnt) ∧
        (∀ p ∈ best, c.pagecnt ≤ p.2.pagecnt) ∧
        (some (j, c) = best ∨
          ∃ k, rest[k]? = some c ∧ j = i + k ∧
            ∀ m d, m < k → rest[m]? = some d → d.pagecnt ≠ n) := by
  intro rest
  induction rest with
  | nil =>
    intro i best hb j c h
    rw [alloc_scan] at h
    have hmem : (j, c) ∈ best := by rw [h]; rfl
    refine ⟨Nat.le_of_lt (hb (j, c) hmem), ?_, ?_, Or.inl h.symm⟩
    · intro d hd
      exact absurd hd (List.not_mem_nil d)
    · intro p hp
      have : p = (j, c) := by
        rw [h] at hp
        exact (Option.mem_some_iff.mp hp).symm
      rw [this]
  | cons a rest ih =>
    intro i best hb j c h
    rw [alloc_scan] at h
    by_cases hf : scan_better n a best = true
    · obtain ⟨hfa, hfb⟩ := (scan_better_iff n a best).mp hf
      rw [if_pos hf] at h
      by_cases he : a.pagecnt = n
      · rw [if_pos he] at h
        obtain ⟨hj, hc⟩ := Prod.mk.injEq .. ▸ Option.some_inj.mp h
        subst hj hc
        refine ⟨by omega, ?_, ?_, Or.inr ⟨0, by simp, by omega, ?_⟩⟩
        · intro d hd hdn
          omega
        · intro p hp
          have := hb p hp
          omega
        · intro m d hm
          omega
      · rw [if_neg he] at h
        have hb' : ∀ p ∈ some (i, a), n < p.2.pagecnt := by
          intro p hp
          have hpe : (i, a) = p := Option.mem_some_iff.mp hp
          rw [← hpe]
          show n < a.pagecnt
          omega
        obtain ⟨h1, h2, h3, h4⟩ := ih (i + 1) (some (i, a)) hb' j c h
        have hca : c.pagecnt ≤ a.pagecnt := by
          have := h3 (i, a) (by rfl)
          exact this
        refine ⟨h1, ?_, ?_, ?_⟩
        · intro d hd hdn
          rcases List.mem_cons.mp hd with rfl | hd'
          · exact hca
          · exact h2 d hd' hdn
        · intro p hp
          exact le_trans hca (hfb p hp)
        · rcases h4 with hbest | ⟨k, hk, hjk, hex⟩
          · obtain ⟨hji, hca2⟩ := Prod.mk.injEq .. ▸ Option.some_inj.mp hbest
            refine Or.inr ⟨0, by simp [← hca2], by omega, ?_⟩
            intro m d hm
            omega
          · refine Or.inr ⟨k + 1, by simpa using hk, by omega, ?_⟩
            intro m d hm hmd
            match m with
            | 0 =>
              have had : a = d := by simpa using hmd
              rw [← had]
              exact he
            | m' + 1 =>
              exact hex m' d (by omega) (by simpa using hmd)
    · rw [if_neg hf] at h
      obtain ⟨h1, h2, h3, h4⟩ := ih (i + 1) best hb j c h
      have hane : a.pagecnt ≠ n := by
        intro hae
        apply hf
        rw [scan_better_iff]
        refine ⟨by omega, ?_⟩
        intro p hp
        have := hb p hp
        omega
      refine ⟨h1, ?_, h3, ?_⟩
      · intro d hd hdn
        rcases List.mem_cons.mp hd with rfl | hd'
        · -- the head fits but was not better: some best is strictly smaller
          rcases hnf : best with _ | p
          · exfalso
            apply hf
            rw [scan_better_iff, hnf]
            exact ⟨hdn, by simp⟩
          · have hlt : p.2.pagecnt < d.pagecnt := by
              by_contra hge
              apply hf
              rw [scan_better_iff, hnf]
              refine ⟨hdn, ?_⟩
              intro q hq
              have hqp : p = q := Option.mem_some_iff.mp hq
              rw [← hqp]
              omega
            have := h3 p (by rw [hnf]; rfl)
            omega
        · exact h2 d hd' hdn
      · rcases h4 with hbest | ⟨k, hk, hjk, hex⟩
        · exact Or.inl hbest
        · refine Or.inr ⟨k + 1, by simpa using hk, by omega, ?_⟩
          intro m d hm hmd
          match m with
          | 0 =>
            have had : a = d := by simpa using hmd
            rw [← had]
            exact hane
          | m' + 1 =>
            exact hex m' d (by omega) (by simpa using hmd)

/-- C7: when the free list holds at least one chunk with pagecnt >= n
(n >= 1), alloc_phys_pages selects a chunk of minimal page count among
those that fit, with no exact match occurring earlier in the list (an
exact match short-circuits the scan); an exact fit is unlinked and its
address returned, and a larger chunk yields the highest-addressed n pages
while the remainder keeps its list position with pagecnt reduced by n. -/
theorem C7_alloc_phys_pages_best_fit (l : List Chunk) (n : Nat) (hn : 1 ≤ n)
    (hex : ∃ c ∈ l, n ≤ c.pagecnt) :
    ∃ i c, l[i]? = some c ∧ n ≤ c.pagecnt ∧
      (∀ d ∈ l, n ≤ d.pagecnt → c.pagecnt ≤ d.pagecnt) ∧
      (∀ m d, m < i → l[m]? = some d → d.pagecnt ≠ n) ∧
      (c.pagecnt = n → alloc_phys_pages n l = some (c.addr, l.eraseIdx i)) ∧
      (n < c.pagecnt → alloc_phys_pages n l =
        some (c.addr + (c.pagecnt - n) * PAGE_SIZE,
          l.set i ⟨c.addr, c.pagecnt - n⟩)) := by
  have hne := alloc_scan_ne_none n l 0 none (Or.inr hex)
  obtain ⟨⟨j, c⟩, hj⟩ : ∃ p, alloc_scan n l 0 none = some p := by
    cases hcase : alloc_scan n l 0 none with
    | none => exact absurd hcase hne
    | some p => exact ⟨p, rfl⟩
  obtain ⟨h1, h2, _, h4⟩ := alloc_scan_spec n l 0 none (by simp) j c hj
  rcases h4 with hbest | ⟨k, hk, hjk, hex'⟩
  · exact absurd hbest (by simp)
  · have hkj : k = j := by omega
    subst hkj
    refine ⟨k, c, hk, h1, h2, hex', ?_, ?_⟩
    · intro he
      simp only [alloc_phys_pages, hj]
      rw [if_pos (by omega)]
    · intro hlt
      simp only [alloc_phys_pages, hj]
      rw [if_neg (by omega)]

/-- C7 witness: the one-chunk list with 3 pages at address 8192 serves a
2-page request by carving the highest 2 pages (8192 + 4096) and leaving
the low page in place. -/
theorem C7_alloc_phys_pages_best_fit_witness :
    ∃ i c, ([⟨8192, 3⟩] : List Chunk)[i]? = some c ∧ 2 ≤ c.pagecnt ∧
      (∀ d ∈ ([⟨8192, 3⟩] : List Chunk), 2 ≤ d.pagecnt →
        c.pagecnt ≤ d.pagecnt) ∧
      (∀ m d, m < i → ([⟨8192, 3⟩] : List Chunk)[m]? = some d →
        d.pagecnt ≠ 2) ∧
      (c.pagecnt = 2 → alloc_phys_pages 2 [⟨8192, 3⟩] =
        some (c.addr, List.eraseIdx [⟨8192, 3⟩] i)) ∧
      (2 < c.pagecnt → alloc_phys_pages 2 [⟨8192, 3⟩] =
        some (c.addr + (c.pagecnt - 2) * PAGE_SIZE,
          List.set [⟨8192, 3⟩] i ⟨c.addr, c.pagecnt - 2⟩)) :=
  C7_alloc_phys_pages_best_fit [⟨8192, 3⟩] 2 (by decide)
    ⟨⟨8192, 3⟩, by decide, by decide⟩

/-! ## Physical page allocator: free_phys_pages (src/sys/memory.c) -/

/-- The forward-merge step of free_phys_pages (lines 746-758): after the
chunk c has been linked in (possibly already merged with its
predecessor), merge it with the successor when its end meets the
successor's start. -/
def mergeForward (c : Chunk) (after : List Chunk) : List Chunk :=
  match after with
  | [] => [c]
  | t :: rest =>
    if chunk_end c = t.addr then ⟨c.addr, c.pagecnt + t.pagecnt⟩ :: rest
    else c :: t :: rest

/-- Shallow embedding of free_phys_pages (src/sys/memory.c lines
700-759).  The insertion walk (while target != NULL && target < new)
splits the list into the prefix of chunks below the freed address and the
rest; prev is the last chunk of the prefix.  If prev ends exactly at the
freed address, merge backward (the prev node absorbs the new chunk),
then in either case try to merge forward with the successor. -/
def free_phys_pages (l : List Chunk) (a n : Nat) : List Chunk :=
  match (l.takeWhile fun c => decide (c.addr < a)).getLast? with
  | none => mergeForward ⟨a, n⟩ (l.dropWhile fun c => decide (c.addr < a))
  | some prev =>
    if chunk_end prev = a then
      (l.takeWhile fun c => decide (c.addr < a)).dropLast ++
        mergeForward ⟨prev.addr, prev.pagecnt + n⟩
          (l.dropWhile fun c => decide (c.addr < a))
    else
      (l.takeWhile fun c => decide (c.addr < a)) ++
        mergeForward ⟨a, n⟩ (l.dropWhile fun c => decide (c.addr < a))

/-- Total number of pages on the free list (free_phys_page_count). -/
def totalPages (l : List Chunk) : Nat := (l.map Chunk.pagecnt).sum

lemma totalPages_append (x y : List Chunk) :
    totalPages (x ++ y) = totalPages x + totalPages y := by
  simp [totalPages]

lemma totalPages_mergeForward (c : Chunk) (after : List Chunk) :
    totalPages (mergeForward c after) = c.pagecnt + totalPages after := by
  cases after with
  | nil => simp [mergeForward, totalPages]
  | cons t rest =>
    by_cases h : chunk_end c = t.addr
    · simp [mergeForward, h, totalPages]
      omega
    · simp [mergeForward, h, totalPages]

lemma mergeForward_head (c : Chunk) (after : List Chunk) :
    ∃ hd tl, mergeForward c after = hd :: tl ∧ hd.addr = c.addr := by
  cases after with
  | nil => exact ⟨c, [], rfl, rfl⟩
  | cons t rest =>
    by_cases h : chunk_end c = t.addr
    · exact ⟨⟨c.addr, c.pagecnt + t.pagecnt⟩, rest, by simp [mergeForward, h], rfl⟩
    · exact ⟨c, t :: rest, by simp [mergeForward, h], rfl⟩

lemma chain_mergeForward (c : Chunk) (after : List Chunk)
    (hch : List.Chain' (fun x y => chunk_end x < y.addr) after)
    (hhead : ∀ t ∈ after.head?, chunk_end c ≤ t.addr) :
    List.Chain' (fun x y => chunk_end x < y.addr) (mergeForward c after) := by
  cases after with
  | nil => simp [mergeForward]
  | cons t rest =>
    obtain ⟨hlink, hrest⟩ := List.chain'_cons'.mp hch
    have hct : chunk_end c ≤ t.addr := hhead t rfl
    by_cases h : chunk_end c = t.addr
    · rw [mergeForward, if_pos h]
      rw [List.chain'_cons']
      refine ⟨?_, hrest⟩
      intro y hy
      have hte : chunk_end ⟨c.addr, c.pagecnt + t.pagecnt⟩ = chunk_end t := by
        have hdist : (c.pagecnt + t.pagecnt) * PAGE_SIZE =
            c.pagecnt * PAGE_SIZE + t.pagecnt * PAGE_SIZE := Nat.add_mul _ _ _
        simp only [chunk_end] at h ⊢
        omega
      rw [hte]
      exact hlink y hy
    · rw [mergeForward, if_neg h]
      rw [List.chain'_cons']
      refine ⟨?_, hch⟩
      intro y hy
      have hyt : t = y := by simpa using hy
      rw [← hyt]
      omega

/-- Along a gap-chain, every element after the head starts strictly above
the head's end. -/
lemma chain_rel_of_mem_tail :
    ∀ (t : Chunk) (rest : List Chunk) (c : Chunk),
      List.Chain' (fun x y => chunk_end x < y.addr) (t :: rest) →
      c ∈ rest → chunk_end t < c.addr := by
  intro t rest
  induction rest generalizing t with
  | nil =>
    intro c _ hc
    exact absurd hc (List.not_mem_nil c)
  | cons u rest' ih =>
    intro c hch hc
    obtain ⟨hlink, hrest⟩ := List.chain'_cons'.mp hch
    have htu : chunk_end t < u.addr := hlink u rfl
    rcases List.mem_cons.mp hc with rfl | hc'
    · exact htu
    · have := ih u c hrest hc'
      have hau : u.addr ≤ chunk_end u := by
        simp only [chunk_end]
        omega
      omega

lemma dropWhile_head_false {p : Chunk → Bool} :
    ∀ (l : List Chunk) (t : Chunk) (rest : List Chunk),
      l.dropWhile p = t :: rest → p t = false := by
  intro l
  induction l with
  | nil =>
    intro t rest h
    simp [List.dropWhile] at h
  | cons x xs ih =>
    intro t rest h
    rw [List.dropWhile_cons] at h
    by_cases hx : p x
    · rw [if_pos hx] at h
      exact ih t rest h
    · rw [if_neg hx] at h
      obtain ⟨rfl, -⟩ := List.cons.injEq .. ▸ h
      exact Bool.of_not_eq_true hx

/-- C8: freeing a page-aligned chunk of n >= 1 pages, disjoint from every
chunk on a free list whose chunks (each of at least one page) are sorted
with a strict gap between successive chunks, yields a list that is again
sorted by ascending address with no two successive chunks contiguous, and
whose total page count has grown by exactly n. -/
theorem C8_free_phys_pages_coalesce (l : List Chunk) (a n : Nat)
    (ha : a % PAGE_SIZE = 0) (hn : 1 ≤ n)
    (hcnt : ∀ c ∈ l, 1 ≤ c.pagecnt)
    (hchain : List.Chain' (fun c d => chunk_end c < d.addr) l)
    (hdisj : ∀ c ∈ l, chunk_end c ≤ a ∨ a + n * PAGE_SIZE ≤ c.addr) :
    List.Chain' (fun c d => c.addr < d.addr) (free_phys_pages l a n) ∧
    List.Chain' (fun c d => chunk_end c ≠ d.addr) (free_phys_pages l a n) ∧
    totalPages (free_phys_pages l a n) = totalPages l + n := by
  have hP : (0 : Nat) < PAGE_SIZE := by decide
  have hsplit : (l.takeWhile fun c => decide (c.addr < a)) ++
      (l.dropWhile fun c => decide (c.addr < a)) = l :=
    List.takeWhile_append_dropWhile ..
  obtain ⟨hchb, hcha, hlinkba⟩ := List.chain'_append.mp (hsplit ▸ hchain)
  have hmemb : ∀ c ∈ (l.takeWhile fun c => decide (c.addr < a)), c ∈ l := by
    intro c hc
    rw [← hsplit]
    exact List.mem_append_left _ hc
  have hmema : ∀ c ∈ (l.dropWhile fun c => decide (c.addr < a)), c ∈ l := by
    intro c hc
    rw [← hsplit]
    exact List.mem_append_right _ hc
  have hbefore : ∀ c ∈ (l.takeWhile fun c => decide (c.addr < a)),
      chunk_end c ≤ a := by
    intro c hc
    have hlt : c.addr < a := by simpa using List.mem_takeWhile_imp hc
    rcases hdisj c (hmemb c hc) with h | h
    · exact h
    · exfalso
      have := Nat.le_add_right a (n * PAGE_SIZE)
      omega
  have hafter : ∀ c ∈ (l.dropWhile fun c => decide (c.addr < a)),
      a + n * PAGE_SIZE ≤ c.addr := by
    intro c hc
    rcases hd : l.dropWhile fun c => decide (c.addr < a) with _ | ⟨t, rest⟩
    · rw [hd] at hc
      exact absurd hc (List.not_mem_nil c)
    · have hta : ¬ (t.addr < a) := by
        have := dropWhile_head_false _ t rest hd
        simpa using this
      have haddr : a ≤ c.addr := by
        rw [hd] at hc
        rcases List.mem_cons.mp hc with rfl | hc'
        · omega
        · have h1 := chain_rel_of_mem_tail t rest c (by rw [← hd]; exact hcha) hc'
          have h2 : t.addr ≤ chunk_end t := by
            simp only [chunk_end]; omega
          omega
      rcases hdisj c (hmema c hc) with h | h
      · exfalso
        have hc1 := hcnt c (hmema c hc)
        have : c.addr + 1 * PAGE_SIZE ≤ c.addr + c.pagecnt * PAGE_SIZE :=
          Nat.add_le_add_left (Nat.mul_le_mul_right _ hc1) _
        simp only [chunk_end] at h
        omega
      · exact h
  -- the strong chain (gap) for the result, from which both stated chains
  -- and the count follow
  have hmain : List.Chain' (fun c d => chunk_end c < d.addr)
        (free_phys_pages l a n) ∧
      totalPages (free_phys_pages l a n) = totalPages l + n := by
    rcases hcase : (l.takeWhile fun c => decide (c.addr < a)).getLast?
      with _ | prev
    · -- prev == NULL: before is empty
      have hbnil : (l.takeWhile fun c => decide (c.addr < a)) = [] :=
        List.getLast?_eq_none_iff.mp hcase
      simp only [free_phys_pages, hcase]
      constructor
      · apply chain_mergeForward _ _ hcha
        intro t ht
        have htm : t ∈ (l.dropWhile fun c => decide (c.addr < a)) :=
          List.mem_of_mem_head? ht
        have := hafter t htm
        simp only [chunk_end]
        omega
      · rw [totalPages_mergeForward]
        conv_rhs => rw [← hsplit]
        rw [totalPages_append, hbnil]
        simp [totalPages]
        omega
    · have hbne : (l.takeWhile fun c => decide (c.addr < a)) ≠ [] := by
        intro hnil
        rw [hnil] at hcase
        simp at hcase
      have hbsplit : (l.takeWhile fun c => decide (c.addr < a)).dropLast ++
          [prev] = (l.takeWhile fun c => decide (c.addr < a)) :=
        List.dropLast_append_getLast? prev hcase
      obtain ⟨hchd, -, hlinkdp⟩ := List.chain'_append.mp (hbsplit ▸ hchb)
      have hprevmem : prev ∈ (l.takeWhile fun c => decide (c.addr < a)) := by
        rw [← hbsplit]
        exact List.mem_append_right _ (List.mem_singleton_self prev)
      have hprevend : chunk_end prev ≤ a := hbefore prev hprevmem
      have hlinkpa : ∀ y ∈ (l.dropWhile fun c => decide (c.addr < a)).head?,
          chunk_end prev < y.addr := by
        intro y hy
        exact hlinkba prev (by rw [hcase]; rfl) y hy
      simp only [free_phys_pages, hcase]
      by_cases hpe : chunk_end prev = a
      · rw [if_pos hpe]
        have hmf := chain_mergeForward ⟨prev.addr, prev.pagecnt + n⟩ _ hcha ?hd
        case hd =>
          intro t ht
          have htm : t ∈ (l.dropWhile fun c => decide (c.addr < a)) :=
            List.mem_of_mem_head? ht
          have := hafter t htm
          simp only [chunk_end] at hpe ⊢
          have hexp : prev.addr + (prev.pagecnt + n) * PAGE_SIZE =
              (prev.addr + prev.pagecnt * PAGE_SIZE) + n * PAGE_SIZE := by ring
          omega
        constructor
        · rw [List.chain'_append]
          refine ⟨hchd, hmf, ?_⟩
          intro x hx y hy
          obtain ⟨hd', tl', hmf_eq, hd_addr⟩ :=
            mergeForward_head ⟨prev.addr, prev.pagecnt + n⟩
              (l.dropWhile fun c => decide (c.addr < a))
          rw [hmf_eq] at hy
          have hy' : hd' = y := by simpa using hy
          rw [← hy', hd_addr]
          exact hlinkdp x hx prev rfl
        · rw [totalPages_append, totalPages_mergeForward]
          conv_rhs => rw [← hsplit]
          rw [totalPages_append]
          conv_rhs => rw [← hbsplit]
          rw [totalPages_append]
          simp [totalPages]
          omega
      · rw [if_neg hpe]
        have hmf := chain_mergeForward ⟨a, n⟩ _ hcha ?hd2
        case hd2 =>
          intro t ht
          have htm : t ∈ (l.dropWhile fun c => decide (c.addr < a)) :=
            List.mem_of_mem_head? ht
          have := hafter t htm
          simp only [chunk_end]
          omega
        constructor
        · rw [List.chain'_append]
          refine ⟨hchb, hmf, ?_⟩
          intro x hx y hy
          obtain ⟨hd', tl', hmf_eq, hd_addr⟩ :=
            mergeForward_head ⟨a, n⟩ (l.dropWhile fun c => decide (c.addr < a))
          rw [hmf_eq] at hy
          have hy' : hd' = y := by simpa using hy
          rw [← hy', hd_addr]
          have hxp : x = prev := by
            rw [hcase] at hx
            exact Option.mem_some_iff.mp hx |>.symm ▸ rfl
          rw [hxp]
          show chunk_end prev < a
          omega
        · rw [totalPages_append, totalPages_mergeForward]
          conv_rhs => rw [← hsplit]
          rw [totalPages_append]
          simp [totalPages]
          omega
  refine ⟨?_, ?_, hmain.2⟩
  · apply List.Chain'.imp ?_ hmain.1
    intro c d h
    have : c.addr ≤ chunk_end c := by
      simp only [chunk_end]; omega
    omega
  · apply List.Chain'.imp ?_ hmain.1
    intro c d h
    omega

/-- C8 witness: freeing 1 page at 12288 into the list
[(4096, 2 pages), (16384, 1 page)]: the freed page is contiguous with the
first chunk's end (4096 + 2*4096 = 12288) and with the second chunk's
start (12288 + 4096 = 16384), so all three coalesce into one 4-page
chunk, and the total rises from 3 to 4. -/
theorem C8_free_phys_pages_coalesce_witness :
    List.Chain' (fun c d => c.addr < d.addr)
      (free_phys_pages [⟨4096, 2⟩, ⟨16384, 1⟩] 12288 1) ∧
    List.Chain' (fun c d => chunk_end c ≠ d.addr)
      (free_phys_pages [⟨4096, 2⟩, ⟨16384, 1⟩] 12288 1) ∧
    totalPages (free_phys_pages [⟨4096, 2⟩, ⟨16384, 1⟩] 12288 1) =
      totalPages [⟨4096, 2⟩, ⟨16384, 1⟩] + 1 :=
  C8_free_phys_pages_coalesce [⟨4096, 2⟩, ⟨16384, 1⟩] 12288 1
    (by decide) (by decide)
    (by decide)
    (List.chain'_pair.mpr (by decide))
    (by decide)

/-! ## KTFS block allocation (src/sys/ktfs.c)

The block cache over the backing device is modelled as the flat
byte-addressed store it caches: in the sequential model cache_readat /
cache_writeat read and write bytes of the disk image directly (the cache
is write-through, see the block-cache section).  KTFS on-disk integers
are little-endian. -/

def Disk : Type := Nat → Nat

def writeByte (d : Disk) (p v : Nat) : Disk := fun q => if q = p then v else d q

def readLE32 (d : Disk) (p : Nat) : Nat :=
  d p + d (p + 1) * 256 + d (p + 2) * 65536 + d (p + 3) * 16777216

def writeLE32 (d : Disk) (p v : Nat) : Disk := fun q =>
  if q = p then v % 256
  else if q = p + 1 then v / 256 % 256
  else if q = p + 2 then v / 65536 % 256
  else if q = p + 3 then v / 16777216 % 256
  else d q

def KTFS_BLKSZ : Nat := 512

def KTFS_INOSZ : Nat := 32

def KTFS_DENSZ : Nat := 16

def KTFS_DATA_BLOCK_PTR_SIZE : Nat := 4

structure Superblock where
  block_count : Nat
  bitmap_block_count : Nat
  inode_block_count : Nat
  root_directory_inode : Nat
  deriving DecidableEq, Repr

/-- struct ktfs_inode (ktfs.h): size, flags, 3 direct block indices, one
indirect index, 2 doubly-indirect indices. -/
structure Inode where
  size : Nat
  flags : Nat
  block : Fin 3 → Nat
  indirect : Nat
  dindirect : Fin 2 → Nat

/-- The inner loop of ktfs_get_new_block (lines 265-271): scan the 8 bits
of a bitmap byte LSB first for a clear bit. -/
def scanBits (b : Nat) : Nat → Nat → Option Nat
  | _, 0 => none
  | j, fuel + 1 =>
    if (b >>> j) &&& 1 = 0 then some j else scanBits b (j + 1) fuel

def find_clear_bit (b : Nat) : Option Nat := scanBits b 0 8

/-- The outer loop of ktfs_get_new_block (lines 261-273): read one bitmap
byte at a time at byte offset i of the bitmap area (disk position
KTFS_BLKSZ + i); on the first clear bit, set it, write the byte back, and
return i * 8 + j.  When the loop exhausts the bitmap, return 0. -/
def getNewBlockLoop (d : Disk) : Nat → Nat → Nat × Disk
  | _, 0 => (0, d)
  | i, fuel + 1 =>
    match find_clear_bit (d (KTFS_BLKSZ + i)) with
    | some j =>
      (i * 8 + j,
        writeByte d (KTFS_BLKSZ + i) (d (KTFS_BLKSZ + i) ||| (1 <<< j)))
    | none => getNewBlockLoop d (i + 1) fuel

/-- Shallow embedding of ktfs_get_new_block (src/sys/ktfs.c lines
257-276). -/
def ktfs_get_new_block (sb : Superblock) (d : Disk) : Nat × Disk :=
  getNewBlockLoop d 0 (sb.bitmap_block_count * KTFS_BLKSZ)

/-- The shared tail of the doubly-indirect branch of
allocate_new_data_block (lines 612-629), after the optional allocation of
the dindirect block itself. -/
def allocate_dind_rest (sb : Superblock) (ino : Inode) (dinst : Fin 2)
    (off1 off2 new_id : Nat) (d : Disk) : Int × Inode × Disk :=
  let start := 1 + sb.bitmap_block_count + sb.inode_block_count
  let pos := (start + ino.dindirect dinst) * KTFS_BLKSZ +
    off1 * KTFS_DATA_BLOCK_PTR_SIZE
  if off2 = 0 then
    let r3 := ktfs_get_new_block sb d
    if r3.1 = 0 then (-ENODATABLKS, ino, r3.2)
    else
      let d2 := writeLE32 r3.2 pos r3.1
      let pos2 := (start + r3.1) * KTFS_BLKSZ + off2 * KTFS_DATA_BLOCK_PTR_SIZE
      (0, ino, writeLE32 d2 pos2 new_id)
  else
    let idx1 := readLE32 d pos
    let pos2 := (start + idx1) * KTFS_BLKSZ + off2 * KTFS_DATA_BLOCK_PTR_SIZE
    (0, ino, writeLE32 d pos2 new_id)

/-- Shallow embedding of allocate_new_data_block (src/sys/ktfs.c lines
554-631).  A leaf block is allocated first; the sentinel value 0 from
ktfs_get_new_block aborts with -ENODATABLKS.  Depending on the logical
block id, metadata blocks are allocated (indirect at id 3, dindirect at
the start of a doubly-indirect range, second-level indirect when off2 is
0) and the new leaf index is stored in the appropriate slot. -/
def allocate_new_data_block (sb : Superblock) (ino : Inode) (dblock_id : Nat)
    (d : Disk) : Int × Inode × Disk :=
  let start := 1 + sb.bitmap_block_count + sb.inode_block_count
  let r1 := ktfs_get_new_block sb d
  if r1.1 = 0 then (-ENODATABLKS, ino, r1.2)
  else if h3 : dblock_id < 3 then
    (0, { ino with block := Function.update ino.block ⟨dblock_id, h3⟩ r1.1 },
      r1.2)
  else if dblock_id - 3 < 128 then
    if dblock_id = 3 then
      let r2 := ktfs_get_new_block sb r1.2
      if r2.1 = 0 then (-ENODATABLKS, ino, r2.2)
      else
        let pos := (start + r2.1) * KTFS_BLKSZ +
          (dblock_id - 3) * KTFS_DATA_BLOCK_PTR_SIZE
        (0, { ino with indirect := r2.1 }, writeLE32 r2.2 pos r1.1)
    else
      let pos := (start + ino.indirect) * KTFS_BLKSZ +
        (dblock_id - 3) * KTFS_DATA_BLOCK_PTR_SIZE
      (0, ino, writeLE32 r1.2 pos r1.1)
  else
    let dinst : Fin 2 := if dblock_id - 131 < 128 * 128 then 0 else 1
    let adj := if dblock_id - 131 < 128 * 128 then dblock_id - 131
      else dblock_id - 131 - 128 * 128
    let off1 := adj / 128
    let off2 := adj % 128
    if adj = 0 then
      let r2 := ktfs_get_new_block sb r1.2
      if r2.1 = 0 then (-ENODATABLKS, ino, r2.2)
      else
        allocate_dind_rest sb
          { ino with dindirect := Function.update ino.dindirect dinst r2.1 }
          dinst off1 off2 r1.1 r2.2
    else
      allocate_dind_rest sb ino dinst off1 off2 r1.1 r1.2

lemma scanBits_none_iff (b : Nat) :
    ∀ fuel j, scanBits b j fuel = none ↔
      ∀ m, m < fuel → (b >>> (j + m)) &&& 1 ≠ 0 := by
  intro fuel
  induction fuel with
  | zero =>
    intro j
    simp [scanBits]
  | succ fuel ih =>
    intro j
    rw [scanBits]
    by_cases hc : (b >>> j) &&& 1 = 0
    · rw [if_pos hc]
      simp only [reduceCtorEq, false_iff]
      intro hall
      exact hall 0 (by omega) (by simpa using hc)
    · rw [if_neg hc]
      rw [ih (j + 1)]
      constructor
      · intro hall m hm
        match m with
        | 0 => simpa using hc
        | m' + 1 =>
          have := hall m' (by omega)
          simpa [Nat.add_assoc, Nat.add_comm 1 m'] using this
      · intro hall m hm
        have := hall (m + 1) (by omega)
        simpa [Nat.add_assoc, Nat.add_comm 1 m] using this

lemma scanBits_found (b : Nat) :
    ∀ fuel j m, m < fuel →
      (∀ m', m' < m → (b >>> (j + m')) &&& 1 ≠ 0) →
      (b >>> (j + m)) &&& 1 = 0 →
      scanBits b j fuel = some (j + m) := by
  intro fuel
  induction fuel with
  | zero =>
    intro j m hm
    omega
  | succ fuel ih =>
    intro j m hm hbefore hclear
    rw [scanBits]
    by_cases hc : (b >>> j) &&& 1 = 0
    · rw [if_pos hc]
      have hm0 : m = 0 := by
        by_contra hne
        exact hbefore 0 (by omega) (by simpa using hc)
      rw [hm0]
      simp
    · rw [if_neg hc]
      match m with
      | 0 => exact absurd (by simpa using hclear) hc
      | m' + 1 =>
        have h1 := ih (j + 1) m' (by omega) ?before ?clear
        case before =>
          intro m'' hm''
          have := hbefore (m'' + 1) (by omega)
          simpa [Nat.add_assoc, Nat.add_comm 1 m''] using this
        case clear =>
          simpa [Nat.add_assoc, Nat.add_comm 1 m'] using hclear
        rw [h1]
        congr 1
        omega

lemma getNewBlockLoop_none (d : Disk) :
    ∀ fuel i,
      (∀ m, m < fuel → find_clear_bit (d (KTFS_BLKSZ + (i + m))) = none) →
      getNewBlockLoop d i fuel = (0, d) := by
  intro fuel
  induction fuel with
  | zero =>
    intro i _
    rfl
  | succ fuel ih =>
    intro i hall
    rw [getNewBlockLoop]
    have h0 := hall 0 (by omega)
    rw [Nat.add_zero] at h0
    rw [h0]
    apply ih
    intro m hm
    have := hall (m + 1) (by omega)
    rw [← this]
    congr 2
    omega

lemma getNewBlockLoop_found (d : Disk) :
    ∀ fuel i m j, m < fuel →
      (∀ m', m' < m → find_clear_bit (d (KTFS_BLKSZ + (i + m'))) = none) →
      find_clear_bit (d (KTFS_BLKSZ + (i + m))) = some j →
      getNewBlockLoop d i fuel =
        ((i + m) * 8 + j, writeByte d (KTFS_BLKSZ + (i + m))
          (d (KTFS_BLKSZ + (i + m)) ||| (1 <<< j))) := by
  intro fuel
  induction fuel with
  | zero =>
    intro i m j hm
    omega
  | succ fuel ih =>
    intro i m j hm hbefore hfound
    rw [getNewBlockLoop]
    match m with
    | 0 =>
      rw [Nat.add_zero] at hfound
      simp only [hfound]
      rfl
    | m' + 1 =>
      have h00 := hbefore 0 (by omega)
      rw [Nat.add_zero] at h00
      simp only [h00]
      have h1 := ih (i + 1) m' j (by omega) ?before ?found
      case before =>
        intro m'' hm''
        have := hbefore (m'' + 1) (by omega)
        rw [← this]
        congr 2
        omega
      case found =>
        rw [← hfound]
        congr 2
        omega
      rw [h1]
      have : i + 1 + m' = i + (m' + 1) := by omega
      rw [this]

/-- A clear bit in the on-disk data-block bitmap, by global bit index
(bit k lives in byte k/8 of the bitmap area, at bit position k%8,
LSB first). -/
def bitClear (d : Disk) (k : Nat) : Prop :=
  (d (KTFS_BLKSZ + k / 8) >>> (k % 8)) &&& 1 = 0

instance (d : Disk) (k : Nat) : Decidable (bitClear d k) := by
  unfold bitClear; infer_instance

lemma find_clear_bit_none_iff (d : Disk) (i : Nat) :
    find_clear_bit (d (KTFS_BLKSZ + i)) = none ↔
      ∀ j, j < 8 → ¬ bitClear d (i * 8 + j) := by
  rw [find_clear_bit, scanBits_none_iff]
  constructor
  · intro hall j hj
    have := hall j hj
    rw [Nat.zero_add] at this
    unfold bitClear
    have hdiv : (i * 8 + j) / 8 = i := by omega
    have hmod : (i * 8 + j) % 8 = j := by omega
    rw [hdiv, hmod]
    exact this
  · intro hall m hm
    have := hall m hm
    unfold bitClear at this
    have hdiv : (i * 8 + m) / 8 = i := by omega
    have hmod : (i * 8 + m) % 8 = m := by omega
    rw [hdiv, hmod] at this
    rw [Nat.zero_add]
    exact this

/-- ktfs_get_new_block returns the global index of the first clear bitmap
bit, with that bit set in the returned disk. -/
lemma ktfs_get_new_block_first_clear (sb : Superblock) (d : Disk) (k0 : Nat)
    (hk0 : k0 < 8 * (sb.bitmap_block_count * KTFS_BLKSZ))
    (hclear : bitClear d k0) (hfirst : ∀ k, k < k0 → ¬ bitClear d k) :
    ktfs_get_new_block sb d =
      (k0, writeByte d (KTFS_BLKSZ + k0 / 8)
        (d (KTFS_BLKSZ + k0 / 8) ||| (1 <<< (k0 % 8)))) := by
  have hm : k0 / 8 < sb.bitmap_block_count * KTFS_BLKSZ := by omega
  have hfind : find_clear_bit (d (KTFS_BLKSZ + (0 + k0 / 8))) =
      some (0 + k0 % 8) := by
    rw [find_clear_bit]
    have hB : ∀ m', m' < k0 % 8 →
        (d (KTFS_BLKSZ + (0 + k0 / 8)) >>> (0 + m')) &&& 1 ≠ 0 := by
      intro m' hm'
      rw [Nat.zero_add, Nat.zero_add]
      have hlt : (k0 / 8) * 8 + m' < k0 := by omega
      have h5 := hfirst ((k0 / 8) * 8 + m') hlt
      unfold bitClear at h5
      have hdiv : ((k0 / 8) * 8 + m') / 8 = k0 / 8 := by omega
      have hmod : ((k0 / 8) * 8 + m') % 8 = m' := by omega
      rw [hdiv, hmod] at h5
      exact h5
    have hC : (d (KTFS_BLKSZ + (0 + k0 / 8)) >>> (0 + k0 % 8)) &&& 1 = 0 := by
      rw [Nat.zero_add, Nat.zero_add]
      unfold bitClear at hclear
      exact hclear
    exact scanBits_found _ 8 0 (k0 % 8) (by omega) hB hC
  have hbefore : ∀ m', m' < k0 / 8 →
      find_clear_bit (d (KTFS_BLKSZ + (0 + m'))) = none := by
    intro m' hm'
    rw [Nat.zero_add, find_clear_bit_none_iff]
    intro j hj
    exact hfirst (m' * 8 + j) (by omega)
  have h := getNewBlockLoop_found d (sb.bitmap_block_count * KTFS_BLKSZ)
    0 (k0 / 8) (0 + k0 % 8) hm hbefore hfind
  rw [ktfs_get_new_block, h]
  have h1 : (0 + k0 / 8) * 8 + (0 + k0 % 8) = k0 := by omega
  have h2 : 0 + k0 / 8 = k0 / 8 := by omega
  rw [h1, h2]
  have h3 : (0 : Nat) + k0 % 8 = k0 % 8 := by omega
  rw [h3]

/-- ktfs_get_new_block returns 0 with the disk unchanged when every bit of
the bitmap is set. -/
lemma ktfs_get_new_block_full (sb : Superblock) (d : Disk)
    (hfull : ∀ k, k < 8 * (sb.bitmap_block_count * KTFS_BLKSZ) →
      ¬ bitClear d k) :
    ktfs_get_new_block sb d = (0, d) := by
  rw [ktfs_get_new_block]
  apply getNewBlockLoop_none
  intro m hm
  rw [Nat.zero_add, find_clear_bit_none_iff]
  intro j hj
  exact hfull (m * 8 + j) (by omega)

/-- C9: the data-block bitmap scan returns the global index of the first
clear bit, with that bit set in the returned disk (part 1); it returns 0
with the disk unchanged when the bitmap is full (part 2); and, since the
return value 0 is also the index of data-area block 0, whenever the scan
returns 0 -- first free block is block 0, or bitmap full --
allocate_new_data_block returns -ENODATABLKS for every inode and logical
block id, leaving the inode unchanged and the disk as the scan left it
(part 3). -/
theorem C9_get_new_block_zero_ambiguous (sb : Superblock) (d : Disk) :
    (∀ k0, k0 < 8 * (sb.bitmap_block_count * KTFS_BLKSZ) →
      bitClear d k0 →
      (∀ k, k < k0 → ¬ bitClear d k) →
      ktfs_get_new_block sb d =
        (k0, writeByte d (KTFS_BLKSZ + k0 / 8)
          (d (KTFS_BLKSZ + k0 / 8) ||| (1 <<< (k0 % 8))))) ∧
    ((∀ k, k < 8 * (sb.bitmap_block_count * KTFS_BLKSZ) → ¬ bitClear d k) →
      ktfs_get_new_block sb d = (0, d)) ∧
    (∀ ino dblock_id, (ktfs_get_new_block sb d).1 = 0 →
      allocate_new_data_block sb ino dblock_id d =
        (-ENODATABLKS, ino, (ktfs_get_new_block sb d).2)) := by
  refine ⟨ktfs_get_new_block_first_clear sb d,
    ktfs_get_new_block_full sb d, ?_⟩
  intro ino dblock_id h0
  simp only [allocate_new_data_block]
  rw [if_pos h0]

/-- C9 witness: on a one-bitmap-block filesystem whose first bitmap byte
is 254 (bit 0 clear), the scan returns 0 -- the same value as at a full
bitmap -- and allocate_new_data_block therefore fails with -ENODATABLKS,
leaving the inode untouched. -/
theorem C9_get_new_block_zero_ambiguous_witness :
    ktfs_get_new_block ⟨100, 1, 1, 0⟩ (fun _ => 254) =
      (0, writeByte (fun _ => 254) (KTFS_BLKSZ + 0 / 8)
        ((fun _ : Nat => (254 : Nat)) (KTFS_BLKSZ + 0 / 8) ||| (1 <<< (0 % 8)))) ∧
    allocate_new_data_block ⟨100, 1, 1, 0⟩ ⟨0, 0, fun _ => 0, 0, fun _ => 0⟩ 5
        (fun _ => 254) =
      (-ENODATABLKS, ⟨0, 0, fun _ => 0, 0, fun _ => 0⟩,
        (ktfs_get_new_block ⟨100, 1, 1, 0⟩ (fun _ => 254)).2) := by
  obtain ⟨ha, hb, hc⟩ :=
    C9_get_new_block_zero_ambiguous ⟨100, 1, 1, 0⟩ (fun _ => 254)
  have h1 := ha 0 (by decide) (by decide) (by omega)
  refine ⟨h1, ?_⟩
  exact hc ⟨0, 0, fun _ => 0, 0, fun _ => 0⟩ 5 (by rw [h1])

/-! ## KTFS file extension (ktfs_ext_len, src/sys/ktfs.c) -/

/-- Decode a packed 32-byte on-disk inode (cache_readat of KTFS_INOSZ
bytes into struct ktfs_inode). -/
def readInode (d : Disk) (p : Nat) : Inode :=
  { size := readLE32 d p
    flags := readLE32 d (p + 4)
    block := fun i => readLE32 d (p + 8 + 4 * i.val)
    indirect := readLE32 d (p + 20)
    dindirect := fun i => readLE32 d (p + 24 + 4 * i.val) }

/-- Encode a packed 32-byte on-disk inode (cache_writeat of KTFS_INOSZ
bytes from struct ktfs_inode). -/
def writeInode (d : Disk) (p : Nat) (ino : Inode) : Disk :=
  writeLE32 (writeLE32 (writeLE32 (writeLE32 (writeLE32 (writeLE32 (writeLE32
    (writeLE32 d p ino.size) (p + 4) ino.flags) (p + 8) (ino.block 0))
    (p + 12) (ino.block 1)) (p + 16) (ino.block 2)) (p + 20) ino.indirect)
    (p + 24) (ino.dindirect 0)) (p + 28) (ino.dindirect 1)

lemma writeLE32_apply_ne (d : Disk) (p v q : Nat)
    (h : q < p ∨ p + 4 ≤ q) : writeLE32 d p v q = d q := by
  simp only [writeLE32]
  rw [if_neg (by omega), if_neg (by omega), if_neg (by omega),
    if_neg (by omega)]

lemma readLE32_writeLE32_ne (d : Disk) (p v q : Nat)
    (h : q + 4 ≤ p ∨ p + 4 ≤ q) : readLE32 (writeLE32 d p v) q = readLE32 d q := by
  simp only [readLE32]
  rw [writeLE32_apply_ne d p v q (by omega),
    writeLE32_apply_ne d p v (q + 1) (by omega),
    writeLE32_apply_ne d p v (q + 2) (by omega),
    writeLE32_apply_ne d p v (q + 3) (by omega)]

lemma readLE32_writeLE32 (d : Disk) (p v : Nat) (hv : v < 4294967296) :
    readLE32 (writeLE32 d p v) p = v := by
  have e0 : writeLE32 d p v p = v % 256 := by
    simp [writeLE32]
  have e1 : writeLE32 d p v (p + 1) = v / 256 % 256 := by
    have hne : ¬ (p + 1 = p) := by omega
    simp [writeLE32, hne]
  have e2 : writeLE32 d p v (p + 2) = v / 65536 % 256 := by
    have hne1 : ¬ (p + 2 = p) := by omega
    have hne2 : ¬ (p + 2 = p + 1) := by omega
    simp [writeLE32, hne1, hne2]
  have e3 : writeLE32 d p v (p + 3) = v / 16777216 % 256 := by
    have hne1 : ¬ (p + 3 = p) := by omega
    have hne2 : ¬ (p + 3 = p + 1) := by omega
    have hne3 : ¬ (p + 3 = p + 2) := by omega
    simp [writeLE32, hne1, hne2, hne3]
  simp only [readLE32, e0, e1, e2, e3]
  omega

/-- Reading back the size field of a just-written inode record. -/
lemma readInode_writeInode_size (d : Disk) (p : Nat) (ino : Inode)
    (h : ino.size < 4294967296) :
    (readInode (writeInode d p ino) p).size = ino.size := by
  have hs : (readInode (writeInode d p ino) p).size =
      readLE32 (writeInode d p ino) p := rfl
  rw [hs, writeInode,
    readLE32_writeLE32_ne _ (p + 28) _ p (by omega),
    readLE32_writeLE32_ne _ (p + 24) _ p (by omega),
    readLE32_writeLE32_ne _ (p + 20) _ p (by omega),
    readLE32_writeLE32_ne _ (p + 16) _ p (by omega),
    readLE32_writeLE32_ne _ (p + 12) _ p (by omega),
    readLE32_writeLE32_ne _ (p + 8) _ p (by omega),
    readLE32_writeLE32_ne _ (p + 4) _ p (by omega),
    readLE32_writeLE32 _ _ _ h]

/-- allocate_dind_rest returns its inode argument unchanged. -/
lemma allocate_dind_rest_ino (sb : Superblock) (ino : Inode) (dinst : Fin 2)
    (off1 off2 new_id : Nat) (d : Disk) :
    (allocate_dind_rest sb ino dinst off1 off2 new_id d).2.1 = ino := by
  simp only [allocate_dind_rest]
  split_ifs <;> rfl

set_option maxRecDepth 4000 in
set_option maxHeartbeats 1000000 in
/-- allocate_new_data_block never changes the size field of the inode. -/
lemma allocate_size (sb : Superblock) (ino : Inode) (i : Nat) (d : Disk) :
    (allocate_new_data_block sb ino i d).2.1.size = ino.size := by
  simp only [allocate_new_data_block]
  split_ifs <;> simp [allocate_dind_rest_ino]

/-- First logical block that SETEND must allocate when extending a file of
size old_size. -/
def extStart (old_size : Nat) : Nat :=
  if old_size = 0 then 0 else (old_size - 1) / KTFS_BLKSZ + 1

/-- Disk position of inode record inode_num: behind the superblock and the
bitmap blocks. -/
def inodePos (sb : Superblock) (inode_num : Nat) : Nat :=
  inode_num * KTFS_INOSZ + (1 + sb.bitmap_block_count) * KTFS_BLKSZ

/-- The allocation loop of ktfs_ext_len (src/sys/ktfs.c lines 928-932):
one allocate_new_data_block call per logical block id i..last, the inode
persisted (cache_writeat of KTFS_INOSZ at inode_pos) after each success,
-ENODATABLKS on the first failure.  The final List Nat component is a
ghost trace of the logical block ids passed to allocate_new_data_block;
it has no effect on the computation. -/
def extLoop (sb : Superblock) (inode_pos : Nat) (ino : Inode) (d : Disk)
    (i last : Nat) : Int × Inode × Disk × List Nat :=
  if h : i ≤ last then
    let r := allocate_new_data_block sb ino i d
    if r.1 < 0 then (-ENODATABLKS, r.2.1, r.2.2, [i])
    else
      let rest := extLoop sb inode_pos r.2.1
        (writeInode r.2.2 inode_pos r.2.1) (i + 1) last
      (rest.1, rest.2.1, rest.2.2.1, i :: rest.2.2.2)
  else (0, ino, d, [])
termination_by last + 1 - i
decreasing_by omega

/-- Shallow embedding of ktfs_ext_len (src/sys/ktfs.c lines 895-936).
Returns (result, new my_file->file_size, new disk, ghost allocation
trace).  The inode is read at inode_pos, its size set to len and written
back, then the loop allocates logical blocks extStart(old) .. (len-1)/512. -/
def ktfs_ext_len (sb : Superblock) (file_size inode_num len : Nat)
    (d : Disk) : Int × Nat × Disk × List Nat :=
  if len ≤ file_size ∨ len = 0 then (0, file_size, d, [])
  else
    ((extLoop sb (inodePos sb inode_num)
        { readInode d (inodePos sb inode_num) with size := len }
        (writeInode d (inodePos sb inode_num)
          { readInode d (inodePos sb inode_num) with size := len })
        (extStart file_size) ((len - 1) / KTFS_BLKSZ)).1,
     len,
     (extLoop sb (inodePos sb inode_num)
        { readInode d (inodePos sb inode_num) with size := len }
        (writeInode d (inodePos sb inode_num)
          { readInode d (inodePos sb inode_num) with size := len })
        (extStart file_size) ((len - 1) / KTFS_BLKSZ)).2.2.1,
     (extLoop sb (inodePos sb inode_num)
        { readInode d (inodePos sb inode_num) with size := len }
        (writeInode d (inodePos sb inode_num)
          { readInode d (inodePos sb inode_num) with size := len })
        (extStart file_size) ((len - 1) / KTFS_BLKSZ)).2.2.2)

/-- Shallow embedding of ktfs_cntl (src/sys/ktfs.c lines 1028-1051),
restricted to the state it touches; the last tuple component is the value
left in *szarg. -/
def ktfs_cntl (sb : Superblock) (file_size inode_num : Nat) (cmd arg : Nat)
    (d : Disk) : Int × Nat × Disk × List Nat × Nat :=
  if cmd = IOCTL_GETBLKSZ then (1, file_size, d, [], arg)
  else if cmd = IOCTL_SETEND then
    ((ktfs_ext_len sb file_size inode_num arg d).1,
     (ktfs_ext_len sb file_size inode_num arg d).2.1,
     (ktfs_ext_len sb file_size inode_num arg d).2.2.1,
     (ktfs_ext_len sb file_size inode_num arg d).2.2.2, arg)
  else if cmd = IOCTL_GETEND then (0, file_size, d, [], file_size)
  else (-EINVAL, file_size, d, [], arg)

lemma extLoop_spec (sb : Superblock) (inode_pos : Nat) :
    ∀ fuel i last (ino : Inode) (d : Disk), last + 1 - i ≤ fuel →
      ((extLoop sb inode_pos ino d i last).2.1.size = ino.size) ∧
      ((extLoop sb inode_pos ino d i last).1 = 0 ∨
        (extLoop sb inode_pos ino d i last).1 = -ENODATABLKS) ∧
      ((extLoop sb inode_pos ino d i last).1 = 0 →
        (extLoop sb inode_pos ino d i last).2.2.2 =
          List.range' i (last + 1 - i) ∧
        ((i ≤ last → ∃ d2, (extLoop sb inode_pos ino d i last).2.2.1 =
            writeInode d2 inode_pos (extLoop sb inode_pos ino d i last).2.1) ∧
         (last < i → (extLoop sb inode_pos ino d i last).2.2.1 = d ∧
            (extLoop sb inode_pos ino d i last).2.1 = ino))) := by
  intro fuel
  induction fuel with
  | zero =>
    intro i last ino d hfuel
    have hgt : ¬ (i ≤ last) := by omega
    rw [extLoop, dif_neg hgt]
    refine ⟨rfl, Or.inl rfl, fun _ => ⟨?_, fun hle => absurd hle hgt,
      fun _ => ⟨rfl, rfl⟩⟩⟩
    have h0 : last + 1 - i = 0 := by omega
    rw [h0]
    rfl
  | succ fuel ih =>
    intro i last ino d hfuel
    by_cases hle : i ≤ last
    · rw [extLoop, dif_pos hle]
      simp only []
      by_cases hfail : (allocate_new_data_block sb ino i d).1 < 0
      · rw [if_pos hfail]
        refine ⟨allocate_size sb ino i d, Or.inr rfl, fun h0 => ?_⟩
        exact absurd (show (-ENODATABLKS : Int) = 0 from h0) (by decide)
      · rw [if_neg hfail]
        have hIH := ih (i + 1) last
          (allocate_new_data_block sb ino i d).2.1
          (writeInode (allocate_new_data_block sb ino i d).2.2 inode_pos
            (allocate_new_data_block sb ino i d).2.1)
          (by omega)
        refine ⟨?_, hIH.2.1, fun h0 => ?_⟩
        · show (extLoop sb inode_pos _ _ (i + 1) last).2.1.size = ino.size
          rw [hIH.1, allocate_size]
        · obtain ⟨htr, hw1, hw2⟩ := hIH.2.2 h0
          constructor
          · show i :: (extLoop sb inode_pos _ _ (i + 1) last).2.2.2 =
              List.range' i (last + 1 - i)
            rw [htr]
            have hs : last + 1 - i = (last + 1 - (i + 1)) + 1 := by omega
            rw [hs, List.range'_succ]
          · refine ⟨fun _ => ?_, fun hgt => absurd hle (by omega)⟩
            by_cases hle2 : i + 1 ≤ last
            · obtain ⟨d2, hd2⟩ := hw1 hle2
              exact ⟨d2, hd2⟩
            · obtain ⟨hdisk, hino⟩ := hw2 (by omega)
              refine ⟨(allocate_new_data_block sb ino i d).2.2, ?_⟩
              show (extLoop sb inode_pos _ _ (i + 1) last).2.2.1 = _
              rw [hdisk, hino]
    · rw [extLoop, dif_neg hle]
      refine ⟨rfl, Or.inl rfl, fun _ => ⟨?_, fun hle2 => absurd hle2 hle,
        fun _ => ⟨rfl, rfl⟩⟩⟩
      have h0 : last + 1 - i = 0 := by omega
      rw [h0]
      rfl

/-- C6: SETEND on a KTFS file handle dispatches to ktfs_ext_len (part 1);
a request len <= old size (or len = 0) is a no-op returning 0 (part 2);
extending past the old size sets the in-memory file size to len, returns
0 or -ENODATABLKS, and on success makes exactly one
allocate_new_data_block call per logical block from extStart(old_size) =
(old_size-1)/512 + 1 (0 when old_size = 0) through (len-1)/512 inclusive
-- the ghost trace is that exact range -- re-persisting the inode after
each allocation, so the on-disk inode size field reads back as len
(part 3); and every allocation takes the first clear bit of the
data-block bitmap, marking it allocated (part 4). -/
theorem C6_ktfs_ext_len_extend (sb : Superblock) (fsz inode_num len : Nat)
    (d : Disk) (hlen32 : len < 4294967296) :
    (ktfs_cntl sb fsz inode_num IOCTL_SETEND len d =
      ((ktfs_ext_len sb fsz inode_num len d).1,
       (ktfs_ext_len sb fsz inode_num len d).2.1,
       (ktfs_ext_len sb fsz inode_num len d).2.2.1,
       (ktfs_ext_len sb fsz inode_num len d).2.2.2, len)) ∧
    (len ≤ fsz → ktfs_ext_len sb fsz inode_num len d = (0, fsz, d, [])) ∧
    (fsz < len →
      (ktfs_ext_len sb fsz inode_num len d).2.1 = len ∧
      ((ktfs_ext_len sb fsz inode_num len d).1 = 0 ∨
       (ktfs_ext_len sb fsz inode_num len d).1 = -ENODATABLKS) ∧
      ((ktfs_ext_len sb fsz inode_num len d).1 = 0 →
        (ktfs_ext_len sb fsz inode_num len d).2.2.2 =
          List.range' (extStart fsz)
            ((len - 1) / KTFS_BLKSZ + 1 - extStart fsz) ∧
        (readInode (ktfs_ext_len sb fsz inode_num len d).2.2.1
          (inodePos sb inode_num)).size = len)) ∧
    (∀ d3 k0, k0 < 8 * (sb.bitmap_block_count * KTFS_BLKSZ) →
      bitClear d3 k0 → (∀ k, k < k0 → ¬ bitClear d3 k) →
      ktfs_get_new_block sb d3 =
        (k0, writeByte d3 (KTFS_BLKSZ + k0 / 8)
          (d3 (KTFS_BLKSZ + k0 / 8) ||| (1 <<< (k0 % 8))))) := by
  refine ⟨?_, ?_, ?_, fun d3 => ktfs_get_new_block_first_clear sb d3⟩
  · simp only [ktfs_cntl, IOCTL_GETBLKSZ, IOCTL_SETEND]
    norm_num
  · intro hle
    rw [ktfs_ext_len, if_pos (Or.inl hle)]
  · intro hlt
    have hcond : ¬ (len ≤ fsz ∨ len = 0) := by omega
    have hspec := extLoop_spec sb (inodePos sb inode_num)
      ((len - 1) / KTFS_BLKSZ + 1) (extStart fsz) ((len - 1) / KTFS_BLKSZ)
      { readInode d (inodePos sb inode_num) with size := len }
      (writeInode d (inodePos sb inode_num)
        { readInode d (inodePos sb inode_num) with size := len })
      (Nat.sub_le _ _)
    rw [ktfs_ext_len, if_neg hcond]
    refine ⟨rfl, hspec.2.1, fun h0 => ?_⟩
    obtain ⟨htr, hw1, hw2⟩ := hspec.2.2 h0
    refine ⟨htr, ?_⟩
    by_cases hle2 : extStart fsz ≤ (len - 1) / KTFS_BLKSZ
    · obtain ⟨d2, hd2⟩ := hw1 hle2
      show (readInode (extLoop sb (inodePos sb inode_num) _ _
        (extStart fsz) ((len - 1) / KTFS_BLKSZ)).2.2.1
        (inodePos sb inode_num)).size = len
      rw [hd2, readInode_writeInode_size _ _ _ (by rw [hspec.1]; exact hlen32),
        hspec.1]
    · obtain ⟨hdisk, hino⟩ := hw2 (by omega)
      show (readInode (extLoop sb (inodePos sb inode_num) _ _
        (extStart fsz) ((len - 1) / KTFS_BLKSZ)).2.2.1
        (inodePos sb inode_num)).size = len
      rw [hdisk, readInode_writeInode_size _ _ _ hlen32]

/-- C6 witness: SETEND with a length not exceeding the current size 5 is
a no-op returning 0, and extending an empty file to length 10 sets the
in-memory file size to 10. -/
theorem C6_ktfs_ext_len_extend_witness :
    ktfs_ext_len ⟨100, 1, 1, 0⟩ 5 0 3 (fun _ => 255) =
      (0, 5, (fun _ => 255), []) ∧
    (ktfs_ext_len ⟨100, 1, 1, 0⟩ 0 0 10 (fun _ => 255)).2.1 = 10 := by
  constructor
  · exact (C6_ktfs_ext_len_extend ⟨100, 1, 1, 0⟩ 5 0 3 (fun _ => 255)
      (by decide)).2.1 (by decide)
  · exact ((C6_ktfs_ext_len_extend ⟨100, 1, 1, 0⟩ 0 0 10 (fun _ => 255)
      (by decide)).2.2.1 (by decide)).1

/- ===================== C5: block cache write-back ====================== -/

/- Shallow embedding of src/sys/cache.c.  CACHE_CAPACITY is 64 and
CACHE_BLKSZ is 512.  A cache entry's flag bits CACHE_USED (1 << 0),
CACHE_DIRTY (1 << 1) and CACHE_VALID (1 << 2) are modelled as three named
booleans; CACHE_ISUSED/ISDIRTY/ISVALID read the corresponding boolean.
The backing device io is modelled block-granularly: ioreadat(backend,
pos, buf, 512) with pos = block_id * CACHE_BLKSZ reads backend block_id,
and iowriteat(backend, block_id * CACHE_BLKSZ, pblk, 512) updates
backend at block_id.  The per-slot locks serve mutual exclusion only and
are dropped in this sequential model. -/

def CACHE_CAPACITY : Nat := 64

def CACHE_BLKSZ : Nat := 512

/-- One struct cache_entry (cache.c lines 45-48): a block id plus the
USED / DIRTY / VALID flag bits. -/
structure CacheEntry where
  block_id : Nat
  used : Bool
  dirty : Bool
  valid : Bool
deriving DecidableEq

/-- The cache state: struct cache (table, clock_idx, last_read_idx)
together with the static cache_data array and the backing device
contents. -/
structure CacheSt where
  table : Fin 64 → CacheEntry
  data : Fin 64 → (Nat → Nat)
  clock_idx : Fin 64
  last_read_idx : Fin 64
  backend : Nat → (Nat → Nat)

/-- create_cache (cache.c lines 66-84): kcalloc zeroes the table, all
flags are cleared, both indices start at 0; cache_data is a zeroed
static array. -/
def initCache (bk : Nat → Nat → Nat) : CacheSt :=
  { table := fun _ => ⟨0, false, false, false⟩,
    data := fun _ _ => 0,
    clock_idx := 0,
    last_read_idx := 0,
    backend := bk }

/-- The hit scan of cache_get_block (lines 102-114): the first slot in
index order whose block_id matches and whose VALID flag is set. -/
def findHit (t : Fin 64 → CacheEntry) (bid : Nat) : Option (Fin 64) :=
  (List.finRange 64).find? (fun i => ((t i).block_id == bid) && (t i).valid)

/-- The clock (second chance) loop of cache_get_block (lines 124-131):
while the current slot is USED, clear its USED flag and advance
clock_idx modulo CACHE_CAPACITY; stop at the first slot that is not
USED.  The C loop is unbounded; it terminates within 65 iterations
(lemma clockScan_not_used), so the embedding runs it on fuel 65. -/
def clockScan : (Fin 64 → CacheEntry) → Fin 64 → Nat → (Fin 64 → CacheEntry) × Fin 64
  | t, i, 0 => (t, i)
  | t, i, fuel + 1 =>
    if (t i).used = true then
      clockScan (Function.update t i { t i with used := false }) (i + 1) fuel
    else (t, i)

/-- cache_get_block (cache.c lines 89-152).  Unaligned pos is rejected
with -EINVAL.  A hit sets the slot's USED flag and records
last_read_idx.  Otherwise the clock scan picks the victim slot; the new
block is read from the backend into that slot with no write-back
of the old contents, and its entry becomes \x7bblock_id, USED|VALID\x7d.  The
returned index stands for the pointer *pptr = cache_data[idx]. -/
def cache_get_block (s : CacheSt) (pos : Nat) : Except Int (CacheSt × Fin 64) :=
  if pos % CACHE_BLKSZ ≠ 0 then Except.error (-EINVAL)
  else
    match findHit s.table (pos / CACHE_BLKSZ) with
    | some i =>
      Except.ok ({ s with
        table := Function.update s.table i { s.table i with used := true },
        last_read_idx := i }, i)
    | none =>
      Except.ok ({ s with
        table := Function.update (clockScan s.table s.clock_idx 65).1
          (clockScan s.table s.clock_idx 65).2
          ⟨pos / CACHE_BLKSZ, true, false, true⟩,
        data := Function.update s.data (clockScan s.table s.clock_idx 65).2
          (s.backend (pos / CACHE_BLKSZ)),
        clock_idx := (clockScan s.table s.clock_idx 65).2,
        last_read_idx := (clockScan s.table s.clock_idx 65).2 },
        (clockScan s.table s.clock_idx 65).2)

/-- cache_release_block (cache.c lines 207-224): when the dirty argument
is 1 the slot is written back to the backend at block_id * CACHE_BLKSZ,
then the slot's DIRTY flag is cleared (the lock release is dropped in
the sequential model). -/
def cache_release_block (s : CacheSt) (idx : Fin 64) (dirty : Bool) : CacheSt :=
  { s with
    backend := if dirty
      then Function.update s.backend (s.table idx).block_id (s.data idx)
      else s.backend,
    table := Function.update s.table idx { s.table idx with dirty := false } }

/-- The splice performed by memcpy(block + block_off, buf, len) in
cache_write_at: bytes [off, off + len) of the block are replaced by the
buffer. -/
def spliceBlock (blk : Nat → Nat) (off len : Nat) (buf : Nat → Nat) : Nat → Nat :=
  fun b => if off ≤ b ∧ b < off + len then buf (b - off) else blk b

/-- cache_read_at (cache.c lines 154-177): clamp bufsz to the block
boundary, get the block (block_pos is always aligned, so the error
branch is dead), copy out, and release the slot passing its own current
DIRTY flag (idx recovers the slot from the returned pointer). -/
def cache_read_at (s : CacheSt) (pos bufsz : Nat) :
    Except Int (CacheSt × List Nat × Nat) :=
  match cache_get_block s (pos / CACHE_BLKSZ * CACHE_BLKSZ) with
  | Except.error e => Except.error e
  | Except.ok (s1, idx) =>
    Except.ok (cache_release_block s1 idx ((s1.table idx).dirty),
      (List.range (if CACHE_BLKSZ < bufsz + pos % CACHE_BLKSZ
          then CACHE_BLKSZ - pos % CACHE_BLKSZ else bufsz)).map
        (fun k => s1.data idx (pos % CACHE_BLKSZ + k)),
      if CACHE_BLKSZ < bufsz + pos % CACHE_BLKSZ
        then CACHE_BLKSZ - pos % CACHE_BLKSZ else bufsz)

/-- cache_write_at (cache.c lines 179-203): clamp len, get the block,
splice the buffer into the slot, set the slot's DIRTY flag, and release
passing CACHE_ISDIRTY of the just-updated entry -- which is now true, so
every write is immediately written through to the backend. -/
def cache_write_at (s : CacheSt) (pos : Nat) (buf : Nat → Nat) (len : Nat) :
    Except Int (CacheSt × Nat) :=
  match cache_get_block s (pos / CACHE_BLKSZ * CACHE_BLKSZ) with
  | Except.error e => Except.error e
  | Except.ok (s1, idx) =>
    let len2 := if CACHE_BLKSZ < len + pos % CACHE_BLKSZ
      then CACHE_BLKSZ - pos % CACHE_BLKSZ else len
    let s2 := { s1 with
      data := Function.update s1.data idx
        (spliceBlock (s1.data idx) (pos % CACHE_BLKSZ) len2 buf),
      table := Function.update s1.table idx { s1.table idx with dirty := true } }
    Except.ok (cache_release_block s2 idx ((s2.table idx).dirty), len2)

/-- cache_flush (cache.c lines 226-235): release every slot in index
order, passing each slot's own current DIRTY flag. -/
def cache_flush (s : CacheSt) : CacheSt :=
  (List.finRange 64).foldl
    (fun c i => cache_release_block c i ((c.table i).dirty)) s

/-- Cache states reachable from create_cache through the public cache
operations.  cache_release_block appears with the dirty argument every
in-repo caller passes: CACHE_ISDIRTY of the slot being released. -/
inductive CacheReachable : CacheSt → Prop
  | init (bk : Nat → Nat → Nat) : CacheReachable (initCache bk)
  | get_block (s : CacheSt) (pos : Nat) (s2 : CacheSt) (idx : Fin 64) :
      CacheReachable s → cache_get_block s pos = Except.ok (s2, idx) →
      CacheReachable s2
  | release (s : CacheSt) (idx : Fin 64) :
      CacheReachable s →
      CacheReachable (cache_release_block s idx ((s.table idx).dirty))
  | read_at (s : CacheSt) (pos bufsz : Nat) (s2 : CacheSt) (out : List Nat)
      (n : Nat) :
      CacheReachable s → cache_read_at s pos bufsz = Except.ok (s2, out, n) →
      CacheReachable s2
  | write_at (s : CacheSt) (pos : Nat) (buf : Nat → Nat) (len : Nat)
      (s2 : CacheSt) (n : Nat) :
      CacheReachable s → cache_write_at s pos buf len = Except.ok (s2, n) →
      CacheReachable s2
  | flush (s : CacheSt) :
      CacheReachable s → CacheReachable (cache_flush s)

/-- The write-through invariant: between operations no slot's DIRTY flag
is set, every VALID slot's bytes agree with the backend copy of its
block, and VALID slots hold pairwise distinct block ids. -/
def cacheInv (s : CacheSt) : Prop :=
  (∀ i, (s.table i).dirty = false) ∧
  (∀ i, (s.table i).valid = true → s.data i = s.backend (s.table i).block_id) ∧
  (∀ i j, i ≠ j → (s.table i).valid = true → (s.table j).valid = true →
    (s.table i).block_id ≠ (s.table j).block_id)

/-- Number of slots with the USED flag set; the clock scan's measure. -/
def usedCount (t : Fin 64 → CacheEntry) : Nat :=
  (Finset.univ.filter (fun j => (t j).used = true)).card

lemma usedCount_le (t : Fin 64 → CacheEntry) : usedCount t ≤ 64 := by
  have h2 := Finset.card_filter_le (Finset.univ : Finset (Fin 64))
    (fun j => (t j).used = true)
  simpa [usedCount, Finset.card_univ] using h2

lemma clockScan_not_used :
    ∀ fuel t i, usedCount t < fuel →
      ((clockScan t i fuel).1 (clockScan t i fuel).2).used = false := by
  intro fuel
  induction fuel with
  | zero => intro t i h; omega
  | succ fuel ih =>
    intro t i h
    by_cases hu : (t i).used = true
    · have heq : clockScan t i (fuel + 1) =
          clockScan (Function.update t i { t i with used := false })
            (i + 1) fuel := by
        simp only [clockScan, if_pos hu]
      rw [heq]
      apply ih
      have hmem : i ∈ Finset.univ.filter (fun j => (t j).used = true) := by
        simp [hu]
      have hset : Finset.univ.filter
          (fun j => ((Function.update t i { t i with used := false }) j).used
            = true) =
          (Finset.univ.filter (fun j => (t j).used = true)).erase i := by
        ext j
        by_cases hj : j = i
        · subst hj
          simp [Function.update_same]
        · simp [Function.update_noteq hj, hj]
      have hpos : 0 < usedCount t := Finset.card_pos.mpr ⟨i, hmem⟩
      have hcard := Finset.card_erase_of_mem hmem
      unfold usedCount at *
      rw [hset, hcard]
      omega
    · have heq : clockScan t i (fuel + 1) = (t, i) := by
        simp only [clockScan, if_neg hu]
      rw [heq]
      simpa using hu

lemma clockScan_fields :
    ∀ fuel t i (j : Fin 64),
      ((clockScan t i fuel).1 j).block_id = (t j).block_id ∧
      ((clockScan t i fuel).1 j).dirty = (t j).dirty ∧
      ((clockScan t i fuel).1 j).valid = (t j).valid := by
  intro fuel
  induction fuel with
  | zero =>
    intro t i j
    have heq : clockScan t i 0 = (t, i) := by
      simp only [clockScan]
    rw [heq]
    exact ⟨rfl, rfl, rfl⟩
  | succ fuel ih =>
    intro t i j
    by_cases hu : (t i).used = true
    · have heq : clockScan t i (fuel + 1) =
          clockScan (Function.update t i { t i with used := false })
            (i + 1) fuel := by
        simp only [clockScan, if_pos hu]
      rw [heq]
      have h3 := ih (Function.update t i { t i with used := false }) (i + 1) j
      by_cases hj : j = i
      · subst hj
        rw [Function.update_same] at h3
        exact h3
      · rw [Function.update_noteq hj] at h3
        exact h3
    · have heq : clockScan t i (fuel + 1) = (t, i) := by
        simp only [clockScan, if_neg hu]
      rw [heq]
      exact ⟨rfl, rfl, rfl⟩

lemma findHit_some (t : Fin 64 → CacheEntry) (bid : Nat) (i : Fin 64)
    (h : findHit t bid = some i) :
    (t i).block_id = bid ∧ (t i).valid = true := by
  have hp := List.find?_some h
  simpa [Bool.and_eq_true, beq_iff_eq] using hp

lemma findHit_none (t : Fin 64 → CacheEntry) (bid : Nat)
    (h : findHit t bid = none) :
    ∀ i, (t i).valid = true → (t i).block_id ≠ bid := by
  intro i hv heq
  have hp := List.find?_eq_none.mp h i (List.mem_finRange i)
  simp [heq, hv] at hp

lemma cache_get_block_ok (s : CacheSt) (pos : Nat) (s2 : CacheSt)
    (idx : Fin 64) (hinv : cacheInv s)
    (h : cache_get_block s pos = Except.ok (s2, idx)) :
    cacheInv s2 ∧ (s2.table idx).valid = true := by
  obtain ⟨hd, hv, hu⟩ := hinv
  by_cases ha : pos % CACHE_BLKSZ ≠ 0
  · simp [cache_get_block, ha] at h
  · rcases hf : findHit s.table (pos / CACHE_BLKSZ) with _ | i
    · -- miss: the clock scan picks the victim and the slot is reloaded
      simp only [cache_get_block, if_neg ha, hf, Except.ok.injEq,
        Prod.mk.injEq] at h
      obtain ⟨hs2, hidx⟩ := h
      have ht : s2.table =
          Function.update (clockScan s.table s.clock_idx 65).1
            (clockScan s.table s.clock_idx 65).2
            ⟨pos / CACHE_BLKSZ, true, false, true⟩ := by
        rw [← hs2]
      have hdata : s2.data = Function.update s.data
          (clockScan s.table s.clock_idx 65).2
          (s.backend (pos / CACHE_BLKSZ)) := by
        rw [← hs2]
      have hback : s2.backend = s.backend := by
        rw [← hs2]
      refine ⟨⟨?_, ?_, ?_⟩, ?_⟩
      · intro j
        rw [ht]
        by_cases hj : j = (clockScan s.table s.clock_idx 65).2
        · subst hj
          rw [Function.update_same]
        · rw [Function.update_noteq hj,
            (clockScan_fields 65 s.table s.clock_idx j).2.1]
          exact hd j
      · intro j hvj
        rw [ht] at hvj
        rw [ht, hdata, hback]
        by_cases hj : j = (clockScan s.table s.clock_idx 65).2
        · subst hj
          rw [Function.update_same] at hvj ⊢
          rw [Function.update_same]
        · rw [Function.update_noteq hj] at hvj
          rw [(clockScan_fields 65 s.table s.clock_idx j).2.2] at hvj
          rw [Function.update_noteq hj, Function.update_noteq hj,
            (clockScan_fields 65 s.table s.clock_idx j).1]
          exact hv j hvj
      · intro j k hjk hvj hvk
        rw [ht] at hvj hvk ⊢
        by_cases hj : j = (clockScan s.table s.clock_idx 65).2 <;>
          by_cases hk : k = (clockScan s.table s.clock_idx 65).2
        · exact absurd (hj.trans hk.symm) hjk
        · rw [hj] at hvj ⊢
          rw [Function.update_same] at hvj ⊢
          rw [Function.update_noteq hk] at hvk ⊢
          rw [(clockScan_fields 65 s.table s.clock_idx k).2.2] at hvk
          rw [(clockScan_fields 65 s.table s.clock_idx k).1]
          exact fun he => findHit_none s.table _ hf k hvk he.symm
        · rw [hk] at hvk ⊢
          rw [Function.update_same] at hvk ⊢
          rw [Function.update_noteq hj] at hvj ⊢
          rw [(clockScan_fields 65 s.table s.clock_idx j).2.2] at hvj
          rw [(clockScan_fields 65 s.table s.clock_idx j).1]
          exact findHit_none s.table _ hf j hvj
        · rw [Function.update_noteq hj] at hvj ⊢
          rw [Function.update_noteq hk] at hvk ⊢
          rw [(clockScan_fields 65 s.table s.clock_idx j).2.2] at hvj
          rw [(clockScan_fields 65 s.table s.clock_idx k).2.2] at hvk
          rw [(clockScan_fields 65 s.table s.clock_idx j).1,
            (clockScan_fields 65 s.table s.clock_idx k).1]
          exact hu j k hjk hvj hvk
      · rw [← hidx, ht, Function.update_same]
    · -- hit: only the USED flag of slot i changes
      simp only [cache_get_block, if_neg ha, hf, Except.ok.injEq,
        Prod.mk.injEq] at h
      obtain ⟨hs2, hidx⟩ := h
      have ht : s2.table = Function.update s.table i
          { s.table i with used := true } := by
        rw [← hs2]
      have hdata : s2.data = s.data := by
        rw [← hs2]
      have hback : s2.backend = s.backend := by
        rw [← hs2]
      obtain ⟨hbid, hval⟩ := findHit_some s.table _ i hf
      refine ⟨⟨?_, ?_, ?_⟩, ?_⟩
      · intro j
        rw [ht]
        by_cases hj : j = i
        · subst hj
          rw [Function.update_same]
          exact hd j
        · rw [Function.update_noteq hj]
          exact hd j
      · intro j hvj
        rw [ht] at hvj
        rw [ht, hdata, hback]
        by_cases hj : j = i
        · subst hj
          rw [Function.update_same] at hvj ⊢
          exact hv j hvj
        · rw [Function.update_noteq hj] at hvj ⊢
          exact hv j hvj
      · intro j k hjk hvj hvk
        rw [ht] at hvj hvk ⊢
        by_cases hj : j = i <;> by_cases hk : k = i
        · exact absurd (hj.trans hk.symm) hjk
        · rw [hj] at hvj hjk ⊢
          rw [Function.update_same] at hvj ⊢
          rw [Function.update_noteq hk] at hvk ⊢
          exact hu i k hjk hvj hvk
        · rw [hk] at hvk hjk ⊢
          rw [Function.update_same] at hvk ⊢
          rw [Function.update_noteq hj] at hvj ⊢
          exact hu j i hjk hvj hvk
        · rw [Function.update_noteq hj] at hvj ⊢
          rw [Function.update_noteq hk] at hvk ⊢
          exact hu j k hjk hvj hvk
      · rw [← hidx, ht, Function.update_same]
        exact hval

lemma cache_release_block_inv (s : CacheSt) (idx : Fin 64)
    (hinv : cacheInv s) :
    cacheInv (cache_release_block s idx ((s.table idx).dirty)) := by
  obtain ⟨hd, hv, hu⟩ := hinv
  have hdi : (s.table idx).dirty = false := hd idx
  have ht : (cache_release_block s idx ((s.table idx).dirty)).table =
      Function.update s.table idx { s.table idx with dirty := false } := rfl
  have hdata : (cache_release_block s idx ((s.table idx).dirty)).data =
      s.data := rfl
  have hback : (cache_release_block s idx ((s.table idx).dirty)).backend =
      s.backend := by
    simp [cache_release_block, hdi]
  refine ⟨?_, ?_, ?_⟩
  · intro j
    rw [ht]
    by_cases hj : j = idx
    · subst hj
      rw [Function.update_same]
    · rw [Function.update_noteq hj]
      exact hd j
  · intro j hvj
    rw [ht] at hvj
    rw [ht, hdata, hback]
    by_cases hj : j = idx
    · subst hj
      rw [Function.update_same] at hvj ⊢
      exact hv j hvj
    · rw [Function.update_noteq hj] at hvj ⊢
      exact hv j hvj
  · intro j k hjk hvj hvk
    rw [ht] at hvj hvk ⊢
    by_cases hj : j = idx <;> by_cases hk : k = idx
    · exact absurd (hj.trans hk.symm) hjk
    · rw [hj] at hvj hjk ⊢
      rw [Function.update_same] at hvj ⊢
      rw [Function.update_noteq hk] at hvk ⊢
      exact hu idx k hjk hvj hvk
    · rw [hk] at hvk hjk ⊢
      rw [Function.update_same] at hvk ⊢
      rw [Function.update_noteq hj] at hvj ⊢
      exact hu j idx hjk hvj hvk
    · rw [Function.update_noteq hj] at hvj ⊢
      rw [Function.update_noteq hk] at hvk ⊢
      exact hu j k hjk hvj hvk

lemma cache_write_at_inv (s : CacheSt) (pos : Nat) (buf : Nat → Nat)
    (len : Nat) (s2 : CacheSt) (n : Nat) (hinv : cacheInv s)
    (h : cache_write_at s pos buf len = Except.ok (s2, n)) :
    cacheInv s2 := by
  rcases hgb : cache_get_block s (pos / CACHE_BLKSZ * CACHE_BLKSZ)
    with e | ⟨s1, idx⟩
  · simp [cache_write_at, hgb] at h
  · obtain ⟨⟨hd, hv, hu⟩, hval⟩ := cache_get_block_ok s _ s1 idx hinv hgb
    simp only [cache_write_at, hgb, Except.ok.injEq, Prod.mk.injEq] at h
    obtain ⟨hs2, hn⟩ := h
    have ht : s2.table =
        Function.update s1.table idx { s1.table idx with dirty := false } := by
      rw [← hs2]
      simp [cache_release_block, Function.update_same, Function.update_idem]
    have hdata : s2.data = Function.update s1.data idx
        (spliceBlock (s1.data idx) (pos % CACHE_BLKSZ)
          (if CACHE_BLKSZ < len + pos % CACHE_BLKSZ
            then CACHE_BLKSZ - pos % CACHE_BLKSZ else len) buf) := by
      rw [← hs2]
      rfl
    have hback : s2.backend = Function.update s1.backend
        (s1.table idx).block_id
        (spliceBlock (s1.data idx) (pos % CACHE_BLKSZ)
          (if CACHE_BLKSZ < len + pos % CACHE_BLKSZ
            then CACHE_BLKSZ - pos % CACHE_BLKSZ else len) buf) := by
      rw [← hs2]
      simp [cache_release_block, Function.update_same]
    refine ⟨?_, ?_, ?_⟩
    · intro j
      rw [ht]
      by_cases hj : j = idx
      · subst hj
        rw [Function.update_same]
      · rw [Function.update_noteq hj]
        exact hd j
    · intro j hvj
      rw [ht] at hvj
      rw [ht, hdata, hback]
      by_cases hj : j = idx
      · subst hj
        rw [Function.update_same] at hvj ⊢
        rw [Function.update_same, Function.update_same]
      · rw [Function.update_noteq hj] at hvj ⊢
        have hne : (s1.table j).block_id ≠ (s1.table idx).block_id :=
          hu j idx hj hvj hval
        rw [Function.update_noteq hj, Function.update_noteq hne]
        exact hv j hvj
    · intro j k hjk hvj hvk
      rw [ht] at hvj hvk ⊢
      by_cases hj : j = idx <;> by_cases hk : k = idx
      · exact absurd (hj.trans hk.symm) hjk
      · rw [hj] at hvj hjk ⊢
        rw [Function.update_same] at hvj ⊢
        rw [Function.update_noteq hk] at hvk ⊢
        exact hu idx k hjk hvj hvk
      · rw [hk] at hvk hjk ⊢
        rw [Function.update_same] at hvk ⊢
        rw [Function.update_noteq hj] at hvj ⊢
        exact hu j idx hjk hvj hvk
      · rw [Function.update_noteq hj] at hvj ⊢
        rw [Function.update_noteq hk] at hvk ⊢
        exact hu j k hjk hvj hvk

lemma cache_read_at_inv (s : CacheSt) (pos bufsz : Nat) (s2 : CacheSt)
    (out : List Nat) (n : Nat) (hinv : cacheInv s)
    (h : cache_read_at s pos bufsz = Except.ok (s2, out, n)) :
    cacheInv s2 := by
  rcases hgb : cache_get_block s (pos / CACHE_BLKSZ * CACHE_BLKSZ)
    with e | ⟨s1, idx⟩
  · simp [cache_read_at, hgb] at h
  · obtain ⟨hinv1, _⟩ := cache_get_block_ok s _ s1 idx hinv hgb
    simp only [cache_read_at, hgb, Except.ok.injEq, Prod.mk.injEq] at h
    obtain ⟨hs2, _⟩ := h
    subst hs2
    exact cache_release_block_inv s1 idx hinv1

lemma cache_flush_inv (s : CacheSt) (hinv : cacheInv s) :
    cacheInv (cache_flush s) := by
  have hgen : ∀ (l : List (Fin 64)) (c : CacheSt), cacheInv c →
      cacheInv (l.foldl
        (fun c2 i => cache_release_block c2 i ((c2.table i).dirty)) c) := by
    intro l
    induction l with
    | nil => intro c hc; exact hc
    | cons x xs ih =>
      intro c hc
      exact ih _ (cache_release_block_inv c x hc)
  exact hgen (List.finRange 64) s hinv

lemma cacheInv_init (bk : Nat → Nat → Nat) : cacheInv (initCache bk) := by
  refine ⟨fun i => rfl, fun i hvi => ?_, fun i j hij hvi => ?_⟩
  · simp [initCache] at hvi
  · simp [initCache] at hvi

lemma cacheInv_reachable (s : CacheSt) (h : CacheReachable s) :
    cacheInv s := by
  induction h with
  | init bk => exact cacheInv_init bk
  | get_block s pos s2 idx hr hop ih =>
    exact (cache_get_block_ok s pos s2 idx ih hop).1
  | release s idx hr ih => exact cache_release_block_inv s idx ih
  | read_at s pos bufsz s2 out n hr hop ih =>
    exact cache_read_at_inv s pos bufsz s2 out n ih hop
  | write_at s pos buf len s2 n hr hop ih =>
    exact cache_write_at_inv s pos buf len s2 n ih hop
  | flush s hr ih => exact cache_flush_inv s ih

/-- C5: in every cache state reachable from create_cache through the
cache operations, the victim slot selected by the clock scan of
cache_get_block -- at the moment new backend contents are read into it
-- is not USED (the scan finds it within 65 steps, so the unbounded C
loop terminates), is not DIRTY, and, when VALID, its bytes already equal
the backend copy of its block: every byte ever stored in a slot under
the DIRTY flag was written through to the backend (at block_id *
CACHE_BLKSZ) by the cache_release_block call of the operation that
dirtied it, so eviction -- which performs no write-back -- never loses
dirty data. -/
theorem C5_cache_eviction_dirty_persisted (s : CacheSt)
    (h : CacheReachable s) :
    ((clockScan s.table s.clock_idx 65).1
      (clockScan s.table s.clock_idx 65).2).used = false ∧
    ((clockScan s.table s.clock_idx 65).1
      (clockScan s.table s.clock_idx 65).2).dirty = false ∧
    (((clockScan s.table s.clock_idx 65).1
        (clockScan s.table s.clock_idx 65).2).valid = true →
      s.data (clockScan s.table s.clock_idx 65).2 =
        s.backend ((clockScan s.table s.clock_idx 65).1
          (clockScan s.table s.clock_idx 65).2).block_id) := by
  obtain ⟨hd, hv, _⟩ := cacheInv_reachable s h
  refine ⟨?_, ?_, ?_⟩
  · exact clockScan_not_used 65 s.table s.clock_idx
      (by have := usedCount_le s.table; omega)
  · rw [(clockScan_fields 65 s.table s.clock_idx _).2.1]
    exact hd _
  · intro hval
    rw [(clockScan_fields 65 s.table s.clock_idx _).2.2] at hval
    rw [(clockScan_fields 65 s.table s.clock_idx _).1]
    exact hv _ hval

/-- A concrete backend for the C5 witness: an all-zero backing device. -/
def C5_bk0 : Nat → Nat → Nat := fun _ _ => 0

/-- C5 witness: the freshly created cache is reachable, and its clock
scan victim (slot 0) is not USED, not DIRTY, and not VALID. -/
theorem C5_cache_eviction_dirty_persisted_witness :
    ((clockScan (initCache C5_bk0).table (initCache C5_bk0).clock_idx 65).1
      (clockScan (initCache C5_bk0).table
        (initCache C5_bk0).clock_idx 65).2).used = false ∧
    ((clockScan (initCache C5_bk0).table (initCache C5_bk0).clock_idx 65).1
      (clockScan (initCache C5_bk0).table
        (initCache C5_bk0).clock_idx 65).2).dirty = false ∧
    (((clockScan (initCache C5_bk0).table
        (initCache C5_bk0).clock_idx 65).1
        (clockScan (initCache C5_bk0).table
          (initCache C5_bk0).clock_idx 65).2).valid = true →
      (initCache C5_bk0).data (clockScan (initCache C5_bk0).table
        (initCache C5_bk0).clock_idx 65).2 =
        (initCache C5_bk0).backend ((clockScan (initCache C5_bk0).table
          (initCache C5_bk0).clock_idx 65).1
          (clockScan (initCache C5_bk0).table
            (initCache C5_bk0).clock_idx 65).2).block_id) :=
  C5_cache_eviction_dirty_persisted (initCache C5_bk0)
    (CacheReachable.init C5_bk0)

end JOS
